import Mathlib

/-!
Verification of the UnsupervisedMedicalSegmentation repository.

Shallow embedding of:
  - `src/utils/diffusion_condensation.py`
    (`pos_enc_sinusoid`, `diffusion_condensation_simple` affinity step,
     `cluster_indices_from_mask`, `most_persistent_structures`,
     `continuous_renumber`, `associate_frames`),
  - `src/datasets/brain_tumor.py` (`crop_or_pad`, `BrainTumor.__getitem__` core),
  - `src/datasets/esophagus_cancer.py` (`EsophagusCancer.__init__` pipeline).

Numeric modelling: label maps use `ℤ`, exact scores (Dice, IoU, area) use `ℚ`,
analytic quantities (cosine similarity) use `ℝ`.  Arrays are nested lists in
row-major order; numpy operations are translated operation by operation.
The external `utils.metrics.dice_coeff` (absent from this repository slice)
is modelled from the spec's contract (section 4.5).
-/

namespace UMS

/-! ## Sorted unique values: the model of `np.unique`

`np.unique` returns the distinct values of an array sorted in ascending
order.  `insertUnique` inserts a value into a sorted duplicate-free list,
and `uniqueSorted` folds it over the array's values. -/

def insertUnique {α : Type} [LinearOrder α] (x : α) : List α → List α
  | [] => [x]
  | y :: ys =>
      if x < y then x :: y :: ys
      else if x = y then y :: ys
      else y :: insertUnique x ys

def uniqueSorted {α : Type} [LinearOrder α] (l : List α) : List α :=
  l.foldr insertUnique []

theorem mem_insertUnique {α : Type} [LinearOrder α] (a x : α) (l : List α) :
    a ∈ insertUnique x l ↔ a = x ∨ a ∈ l := by
  induction l with
  | nil => simp [insertUnique]
  | cons y ys ih =>
      by_cases h1 : x < y
      · simp [insertUnique, h1]
      · by_cases h2 : x = y
        · subst h2
          rw [insertUnique, if_neg h1, if_pos rfl]
          simp only [List.mem_cons]
          tauto
        · rw [insertUnique, if_neg h1, if_neg h2]
          simp only [List.mem_cons, ih]
          tauto

theorem sorted_insertUnique {α : Type} [LinearOrder α] (x : α) (l : List α)
    (hl : l.Sorted (· < ·)) : (insertUnique x l).Sorted (· < ·) := by
  induction l with
  | nil => simp [insertUnique]
  | cons y ys ih =>
      rw [List.sorted_cons] at hl
      obtain ⟨hy, hys⟩ := hl
      by_cases h1 : x < y
      · rw [insertUnique, if_pos h1, List.sorted_cons]
        refine ⟨?_, ?_⟩
        · intro b hb
          rcases List.mem_cons.mp hb with hb | hb
          · exact hb ▸ h1
          · exact h1.trans (hy b hb)
        · rw [List.sorted_cons]; exact ⟨hy, hys⟩
      · by_cases h2 : x = y
        · rw [insertUnique, if_neg h1, if_pos h2, List.sorted_cons]
          exact ⟨hy, hys⟩
        · have hyx : y < x := by
            rcases lt_trichotomy x y with h | h | h
            · exact absurd h h1
            · exact absurd h h2
            · exact h
          rw [insertUnique, if_neg h1, if_neg h2, List.sorted_cons]
          refine ⟨?_, ih hys⟩
          intro b hb
          rcases (mem_insertUnique b x ys).mp hb with hb | hb
          · exact hb ▸ hyx
          · exact hy b hb

theorem sorted_uniqueSorted {α : Type} [LinearOrder α] (l : List α) :
    (uniqueSorted l).Sorted (· < ·) := by
  induction l with
  | nil => simp [uniqueSorted]
  | cons x xs ih => exact sorted_insertUnique x _ ih

theorem mem_uniqueSorted {α : Type} [LinearOrder α] (a : α) (l : List α) :
    a ∈ uniqueSorted l ↔ a ∈ l := by
  induction l with
  | nil => simp [uniqueSorted]
  | cons x xs ih =>
      show a ∈ insertUnique x (uniqueSorted xs) ↔ _
      rw [mem_insertUnique, ih, List.mem_cons]

theorem nodup_uniqueSorted {α : Type} [LinearOrder α] (l : List α) :
    (uniqueSorted l).Nodup :=
  (sorted_uniqueSorted l).nodup

/-! ## `continuous_renumber`

Source (`diffusion_condensation.py`, lines 253-263): the distinct values
`val_before = np.unique(label_orig)` are enumerated in ascending order and
replaced by `val_after = 0, 1, ..., K-1`; a pixel whose original value is
the `b`-th smallest distinct value receives the new value `b`.  `posIn`
computes that index of a value inside the sorted distinct-value list. -/

def posIn {α : Type} [DecidableEq α] (v : α) : List α → ℕ
  | [] => 0
  | y :: ys => if v = y then 0 else posIn v ys + 1

def continuous_renumber (label : List (List ℤ)) : List (List ℤ) :=
  let vals := uniqueSorted label.flatten
  label.map (fun row => row.map (fun v => (posIn v vals : ℤ)))

theorem posIn_lt_length {α : Type} [DecidableEq α] (v : α) (l : List α)
    (h : v ∈ l) : posIn v l < l.length := by
  induction l with
  | nil => simp at h
  | cons y ys ih =>
      by_cases hv : v = y
      · simp [posIn, hv]
      · rcases List.mem_cons.mp h with h' | h'
        · exact absurd h' hv
        · simpa [posIn, hv] using ih h'

theorem posIn_strictMono {α : Type} [LinearOrder α] (l : List α)
    (hl : l.Sorted (· < ·)) (a b : α) (ha : a ∈ l) (hb : b ∈ l)
    (hab : a < b) : posIn a l < posIn b l := by
  induction l with
  | nil => simp at ha
  | cons y ys ih =>
      rw [List.sorted_cons] at hl
      obtain ⟨hy, hys⟩ := hl
      by_cases hb' : b = y
      · subst hb'
        rcases List.mem_cons.mp ha with h' | h'
        · exact absurd (h' ▸ hab) (lt_irrefl _)
        · exact absurd hab (not_lt.mpr (hy a h').le)
      · by_cases ha' : a = y
        · simp only [posIn, if_pos ha', if_neg hb']
          omega
        · have ha2 : a ∈ ys := by
            rcases List.mem_cons.mp ha with h' | h'
            · exact absurd h' ha'
            · exact h'
          have hb2 : b ∈ ys := by
            rcases List.mem_cons.mp hb with h' | h'
            · exact absurd h' hb'
            · exact h'
          simp only [posIn, if_neg ha', if_neg hb']
          exact Nat.add_lt_add_right (ih hys ha2 hb2) 1

theorem posIn_countP {α : Type} [LinearOrder α] (l : List α)
    (hl : l.Sorted (· < ·)) (v : α) (hv : v ∈ l) :
    posIn v l = l.countP (fun u => decide (u < v)) := by
  induction l with
  | nil => simp at hv
  | cons y ys ih =>
      rw [List.sorted_cons] at hl
      obtain ⟨hy, hys⟩ := hl
      by_cases hv' : v = y
      · subst hv'
        have h0 : ys.countP (fun u => decide (u < v)) = 0 := by
          rw [List.countP_eq_zero]
          intro u hu
          simpa using not_lt.mpr (hy u hu).le
        simp [posIn, List.countP_cons, h0]
      · have hv2 : v ∈ ys := by
          rcases List.mem_cons.mp hv with h' | h'
          · exact absurd h' hv'
          · exact h'
        have hyv : y < v := hy v hv2
        simp [posIn, hv', List.countP_cons, ih hys hv2, hyv]

theorem posIn_getElem {α : Type} [LinearOrder α] (l : List α) (k : ℕ)
    (hk : k < l.length) (hnd : l.Nodup) : posIn l[k] l = k := by
  induction l generalizing k with
  | nil => simp at hk
  | cons y ys ih =>
      rw [List.nodup_cons] at hnd
      obtain ⟨hy, hys⟩ := hnd
      cases k with
      | zero => simp [posIn]
      | succ k =>
          have hk' : k < ys.length := by simpa using hk
          have hne : ys[k] ≠ y := by
            intro h
            exact hy (h ▸ List.getElem_mem hk')
          have : (y :: ys)[k + 1] = ys[k] := by simp
          rw [this]
          simp [posIn, hne, ih k hk' hys]

theorem getElem_mem_of_lt {α : Type} (l : List α) (k : ℕ) (hk : k < l.length) :
    l[k] ∈ l := List.getElem_mem hk

/-- The list `[0, 1, ..., K-1]` as integers: the distinct-value set of a
renumbered map. -/
def intsRange (K : ℕ) : List ℤ := List.map (Nat.cast : ℕ → ℤ) (List.range K)

theorem sorted_intsRange (K : ℕ) : (intsRange K).Sorted (· < ·) := by
  unfold intsRange
  refine List.Pairwise.map _ ?_ (List.pairwise_lt_range K)
  intro a b hab
  exact_mod_cast hab

theorem mem_intsRange (K : ℕ) (v : ℤ) :
    v ∈ intsRange K ↔ 0 ≤ v ∧ v < K := by
  unfold intsRange
  rw [List.mem_map]
  constructor
  · rintro ⟨n, hn, rfl⟩
    rw [List.mem_range] at hn
    omega
  · rintro ⟨h0, hK⟩
    exact ⟨v.toNat, List.mem_range.mpr (by omega), by omega⟩

theorem countP_lt_range (K k : ℕ) (h : k ≤ K) :
    (List.range K).countP (fun j => decide (j < k)) = k := by
  induction K with
  | zero =>
      have hk0 : k = 0 := by omega
      subst hk0
      simp
  | succ K ih =>
      rw [List.range_succ, List.countP_append]
      rcases Nat.lt_or_ge k (K + 1) with hk | hk
      · have hk' : k ≤ K := by omega
        rw [ih hk']
        simp [List.countP_cons, Nat.not_lt.mpr hk']
      · have hk' : k = K + 1 := by omega
        subst hk'
        have h1 : (List.range K).countP (fun j => decide (j < K + 1)) =
            (List.range K).length := by
          rw [List.countP_eq_length]
          intro a ha
          rw [List.mem_range] at ha
          simpa using by omega
        rw [h1, List.length_range]
        simp [List.countP_cons]

theorem renumber_flatten (m : List (List ℤ)) :
    (continuous_renumber m).flatten =
      m.flatten.map (fun v => (posIn v (uniqueSorted m.flatten) : ℤ)) := by
  unfold continuous_renumber
  exact (List.map_flatten _ m).symm

theorem renumber_rowLengths (m : List (List ℤ)) :
    (continuous_renumber m).map List.length = m.map List.length := by
  unfold continuous_renumber
  rw [List.map_map]
  exact List.map_congr_left (fun row _ => by simp)

theorem posIn_intsRange (K : ℕ) (k : ℕ) (hk : k < K) :
    posIn (k : ℤ) (intsRange K) = k := by
  have hmem : (k : ℤ) ∈ intsRange K := (mem_intsRange K (k : ℤ)).mpr (by omega)
  rw [posIn_countP _ (sorted_intsRange K) _ hmem]
  unfold intsRange
  rw [List.countP_map]
  have hfun : ((fun u : ℤ => decide (u < (k : ℤ))) ∘ (Nat.cast : ℕ → ℤ)) =
      fun j : ℕ => decide (j < k) := by
    funext j
    exact decide_eq_decide.mpr Nat.cast_lt
  rw [hfun]
  exact countP_lt_range K k hk.le

theorem uniqueSorted_eq_of_same_mem (l1 l2 : List ℤ)
    (h1 : l1.Sorted (· < ·)) (h2 : l2.Sorted (· < ·))
    (h : ∀ a, a ∈ l1 ↔ a ∈ l2) : l1 = l2 := by
  haveI : IsAntisymm ℤ (· < ·) := ⟨fun a b hab hba => absurd hba (lt_asymm hab)⟩
  exact List.eq_of_perm_of_sorted
    ((List.perm_ext_iff_of_nodup h1.nodup h2.nodup).mpr h) h1 h2

theorem renumber_distinct_values (m : List (List ℤ)) :
    uniqueSorted (continuous_renumber m).flatten =
      intsRange (uniqueSorted m.flatten).length := by
  refine uniqueSorted_eq_of_same_mem _ _ (sorted_uniqueSorted _) (sorted_intsRange _) ?_
  intro a
  rw [mem_uniqueSorted, mem_intsRange, renumber_flatten, List.mem_map]
  constructor
  · rintro ⟨v, hv, rfl⟩
    have hvmem : v ∈ uniqueSorted m.flatten := (mem_uniqueSorted v m.flatten).mpr hv
    have := posIn_lt_length v (uniqueSorted m.flatten) hvmem
    omega
  · rintro ⟨h0, hK⟩
    have hlt : a.toNat < (uniqueSorted m.flatten).length := by omega
    refine ⟨(uniqueSorted m.flatten)[a.toNat], ?_, ?_⟩
    · exact (mem_uniqueSorted _ m.flatten).mp (List.getElem_mem hlt)
    · rw [posIn_getElem (uniqueSorted m.flatten) a.toNat hlt (nodup_uniqueSorted _)]
      omega

theorem renumber_idempotent (m : List (List ℤ)) :
    continuous_renumber (continuous_renumber m) = continuous_renumber m := by
  have hvals : uniqueSorted (continuous_renumber m).flatten =
      intsRange (uniqueSorted m.flatten).length := renumber_distinct_values m
  set out := continuous_renumber m with hout
  show out.map (fun row => row.map
      (fun v => (posIn v (uniqueSorted out.flatten) : ℤ))) = out
  have hfix : ∀ w ∈ out.flatten, (posIn w (uniqueSorted out.flatten) : ℤ) = w := by
    intro w hw
    have hwmem : w ∈ uniqueSorted out.flatten :=
      (mem_uniqueSorted w out.flatten).mpr hw
    rw [hvals] at hwmem ⊢
    obtain ⟨h0, hK⟩ := (mem_intsRange _ w).mp hwmem
    have : posIn ((w.toNat : ℕ) : ℤ) (intsRange (uniqueSorted m.flatten).length) =
        w.toNat := posIn_intsRange _ w.toNat (by omega)
    rw [show ((w.toNat : ℕ) : ℤ) = w by omega] at this
    rw [this]
    omega
  have : ∀ row ∈ out, row.map
      (fun v => (posIn v (uniqueSorted out.flatten) : ℤ)) = row := by
    intro row hrow
    have : ∀ v ∈ row, (posIn v (uniqueSorted out.flatten) : ℤ) = v := by
      intro v hv
      exact hfix v (List.mem_flatten.mpr ⟨row, hrow, hv⟩)
    calc row.map (fun v => (posIn v (uniqueSorted out.flatten) : ℤ))
        = row.map id := List.map_congr_left this
      _ = row := List.map_id row
  calc out.map (fun row => row.map
        (fun v => (posIn v (uniqueSorted out.flatten) : ℤ)))
      = out.map id := List.map_congr_left (fun row hrow => this row hrow)
    _ = out := List.map_id out

/-- C7: for every integer label map, `continuous_renumber` preserves the
shape (row lengths), its distinct-value set is exactly `{0, ..., K-1}` where
`K` is the number of distinct values of the original map, distinct original
values `a < b` receive new values with `renumbered a < renumbered b`, and the
function is idempotent. -/
theorem renumber_canonicalization (m : List (List ℤ)) :
    (continuous_renumber m).map List.length = m.map List.length ∧
    uniqueSorted (continuous_renumber m).flatten =
      intsRange (uniqueSorted m.flatten).length ∧
    (∀ a b : ℤ, a ∈ m.flatten → b ∈ m.flatten → a < b →
      (posIn a (uniqueSorted m.flatten) : ℤ) <
        (posIn b (uniqueSorted m.flatten) : ℤ)) ∧
    continuous_renumber (continuous_renumber m) = continuous_renumber m := by
  refine ⟨renumber_rowLengths m, renumber_distinct_values m, ?_, renumber_idempotent m⟩
  intro a b ha hb hab
  have ha' : a ∈ uniqueSorted m.flatten := (mem_uniqueSorted a m.flatten).mpr ha
  have hb' : b ∈ uniqueSorted m.flatten := (mem_uniqueSorted b m.flatten).mpr hb
  exact_mod_cast posIn_strictMono _ (sorted_uniqueSorted _) a b ha' hb' hab

/-- Witness for `renumber_canonicalization`: concrete map `[[3,1],[1,7]]`,
order preservation instantiated at the original values `1 < 3`. -/
theorem renumber_canonicalization_witness :
    ((1 : ℤ) ∈ ([[3, 1], [1, 7]] : List (List ℤ)).flatten) ∧
    ((3 : ℤ) ∈ ([[3, 1], [1, 7]] : List (List ℤ)).flatten) ∧
    (1 : ℤ) < 3 ∧
    (posIn (1 : ℤ) (uniqueSorted ([[3, 1], [1, 7]] : List (List ℤ)).flatten) : ℤ) <
      (posIn (3 : ℤ) (uniqueSorted ([[3, 1], [1, 7]] : List (List ℤ)).flatten) : ℤ) :=
  ⟨by decide, by decide, by decide,
    (renumber_canonicalization [[3, 1], [1, 7]]).2.2.1 1 3
      (by decide) (by decide) (by decide)⟩

/-- Modelled from the claim's wording for comparison: the distinct values in
order of first appearance in flattened-scan order (what the claim asserts
`np.unique` enumeration amounts to). -/
def uniqueByAppearance (l : List ℤ) : List ℤ :=
  l.foldl (fun acc x => if x ∈ acc then acc else acc ++ [x]) []

/-- Modelled from the claim's wording: renumbering where the value appearing
first in scan order receives the smallest new value. -/
def continuousRenumberAppear (label : List (List ℤ)) : List (List ℤ) :=
  let vals := uniqueByAppearance label.flatten
  label.map (fun row => row.map (fun v => (posIn v vals : ℤ)))

/-- C6 counterexample: on the map `[[2, 1]]` the code renumbers by ascending
numeric value (`np.unique` is sorted), giving `[[1, 0]]`; first-appearance
order would give `[[0, 1]]`.  The value `2` appearing first in scan order
does not receive the smallest new value. -/
theorem renumber_not_appearance_order :
    continuous_renumber [[2, 1]] = [[1, 0]] ∧
    continuousRenumberAppear [[2, 1]] = [[0, 1]] ∧
    continuous_renumber [[2, 1]] ≠ continuousRenumberAppear [[2, 1]] := by
  refine ⟨by decide, by decide, ?_⟩
  intro h
  have h1 : continuous_renumber [[2, 1]] = [[1, 0]] := by decide
  have h2 : continuousRenumberAppear [[2, 1]] = [[0, 1]] := by decide
  rw [h1, h2] at h
  exact absurd h (by decide)

/-- C6 amended: `continuous_renumber` assigns new values in ascending
numeric order of the original values: each pixel receives the count of
distinct values of the map that are smaller than its original value. -/
theorem renumber_ascending_value_order (m : List (List ℤ)) :
    continuous_renumber m = m.map (List.map (fun v =>
      ((uniqueSorted m.flatten).countP (fun u => decide (u < v)) : ℤ))) := by
  unfold continuous_renumber
  refine List.map_congr_left ?_
  intro row hrow
  refine List.map_congr_left ?_
  intro v hv
  have hmem : v ∈ uniqueSorted m.flatten :=
    (mem_uniqueSorted v m.flatten).mpr (List.mem_flatten.mpr ⟨row, hrow, hv⟩)
  rw [posIn_countP _ (sorted_uniqueSorted _) v hmem]

/-! ## `crop_or_pad` (`brain_tumor.py`, lines 131-165)

Rank-generic numpy arrays are modelled by the nested `Tensor` type; a numpy
array of shape `[n₁, ..., n_D]` is a depth-`D` tree whose level-`i` nodes
have `nᵢ` children.  `crop_or_pad` builds `np.ones(out_shape) * pad_value`
and overwrites its centered slice with the centered slice of the input; the
functional translation computes each output position from the per-axis
offsets `floor((out-in)/2)` (pad) and `floor((in-out)/2)` (crop). -/

inductive Tensor (α : Type) : Type
  | leaf (x : α) : Tensor α
  | node (ts : List (Tensor α)) : Tensor α

/-- Wellformedness of a tensor against a numpy shape. -/
def tensorWFb {α : Type} : List ℕ → Tensor α → Bool
  | [], .leaf _ => true
  | [], .node _ => false
  | _ :: _, .leaf _ => false
  | n :: s, .node ts => ts.length == n && ts.all (fun t => tensorWFb s t)

/-- The array `np.ones(shape) * pad_value`. -/
def padFull {α : Type} (s : List ℕ) (pad : α) : Tensor α :=
  match s with
  | [] => .leaf pad
  | n :: rest => .node (List.replicate n (padFull rest pad))

def childAt {α : Type} (pad : α) (t : Tensor α) (k : ℕ) : Tensor α :=
  match t with
  | .leaf x => .leaf x
  | .node ts => ts.getD k (.leaf pad)

/-- Dimension-by-dimension core of `crop_or_pad`: per axis, if
`out_shape[i] >= in_shape[i]` the input is centered at padding offset
`floor((out-in)/2)` and positions outside the slice keep the pad value;
otherwise the input is cropped starting at offset `floor((in-out)/2)`. -/
def cropOrPadGo {α : Type} (pad : α) : List ℕ → List ℕ → Tensor α → Tensor α
  | [], _, t => t
  | _ :: _, [], t => t
  | inN :: inS, outN :: outS, t =>
      .node ((List.range outN).map (fun j =>
        if inN ≤ outN then
          if (outN - inN) / 2 ≤ j ∧ j < (outN - inN) / 2 + inN then
            cropOrPadGo pad inS outS (childAt pad t (j - (outN - inN) / 2))
          else padFull outS pad
        else
          cropOrPadGo pad inS outS (childAt pad t (j + (inN - outN) / 2))))

/-- `crop_or_pad`: asserts `len(in_shape) == len(out_shape)` (modelled as
`none` on failure), then applies the per-axis centered crop/pad. -/
def crop_or_pad {α : Type} (in_image : Tensor α) (in_shape out_shape : List ℕ)
    (pad_value : α) : Option (Tensor α) :=
  if in_shape.length = out_shape.length then
    some (cropOrPadGo pad_value in_shape out_shape in_image)
  else none

theorem tensorWFb_node {α : Type} (n : ℕ) (s : List ℕ) (ts : List (Tensor α)) :
    tensorWFb (n :: s) (.node ts) = true ↔
      ts.length = n ∧ ∀ t ∈ ts, tensorWFb s t = true := by
  simp [tensorWFb, List.all_eq_true]

theorem padFull_WF {α : Type} (s : List ℕ) (pad : α) :
    tensorWFb s (padFull s pad) = true := by
  induction s with
  | nil => rfl
  | cons n rest ih =>
      rw [padFull, tensorWFb_node]
      refine ⟨List.length_replicate n _, ?_⟩
      intro t ht
      rw [List.eq_of_mem_replicate ht]
      exact ih

theorem cropOrPadGo_WF {α : Type} (pad : α) (inS outS : List ℕ) (t : Tensor α)
    (hwf : tensorWFb inS t = true) (hrank : inS.length = outS.length) :
    tensorWFb outS (cropOrPadGo pad inS outS t) = true := by
  induction inS generalizing outS t with
  | nil =>
      cases outS with
      | nil => exact hwf
      | cons o os => simp at hrank
  | cons inN inS ih =>
      cases outS with
      | nil => simp at hrank
      | cons outN outS =>
          cases t with
          | leaf x => simp [tensorWFb] at hwf
          | node ts =>
              rw [tensorWFb_node] at hwf
              obtain ⟨hlen, hchild⟩ := hwf
              rw [cropOrPadGo, tensorWFb_node]
              constructor
              · simp
              · intro u hu
                obtain ⟨j, hj, rfl⟩ := List.mem_map.mp hu
                rw [List.mem_range] at hj
                have hrank' : inS.length = outS.length := by simpa using hrank
                by_cases hle : inN ≤ outN
                · rw [if_pos hle]
                  by_cases hin : (outN - inN) / 2 ≤ j ∧ j < (outN - inN) / 2 + inN
                  · rw [if_pos hin]
                    have hk : j - (outN - inN) / 2 < ts.length := by omega
                    have : childAt pad (.node ts) (j - (outN - inN) / 2) =
                        ts[j - (outN - inN) / 2] := by
                      rw [childAt]
                      exact List.getD_eq_getElem ts _ hk
                    rw [this]
                    exact ih _ _ (hchild _ (List.getElem_mem hk)) hrank'
                  · rw [if_neg hin]
                    exact padFull_WF outS pad
                · rw [if_neg hle]
                  have hk : j + (inN - outN) / 2 < ts.length := by omega
                  have : childAt pad (.node ts) (j + (inN - outN) / 2) =
                      ts[j + (inN - outN) / 2] := by
                    rw [childAt]
                    exact List.getD_eq_getElem ts _ hk
                  rw [this]
                  exact ih _ _ (hchild _ (List.getElem_mem hk)) hrank'

theorem getD_range_map {α : Type} (ts : List α) (d : α) :
    (List.range ts.length).map (fun j => ts.getD j d) = ts := by
  refine List.ext_getElem (by simp) ?_
  intro i h1 h2
  have hi : i < ts.length := h2
  have h3 : i < (List.range ts.length).length := by simpa using hi
  rw [List.getElem_map, List.getElem_range]
  exact List.getD_eq_getElem ts d hi

theorem cropOrPadGo_id {α : Type} (pad : α) (s : List ℕ) (t : Tensor α)
    (hwf : tensorWFb s t = true) : cropOrPadGo pad s s t = t := by
  induction s generalizing t with
  | nil => rfl
  | cons n s ih =>
      cases t with
      | leaf x => simp [tensorWFb] at hwf
      | node ts =>
          rw [tensorWFb_node] at hwf
          obtain ⟨hlen, hchild⟩ := hwf
          rw [cropOrPadGo]
          congr 1
          have hmap : ∀ j ∈ List.range n,
              (if n ≤ n then
                if (n - n) / 2 ≤ j ∧ j < (n - n) / 2 + n then
                  cropOrPadGo pad s s (childAt pad (.node ts) (j - (n - n) / 2))
                else padFull s pad
              else cropOrPadGo pad s s (childAt pad (.node ts) (j + (n - n) / 2)))
              = ts.getD j (.leaf pad) := by
            intro j hj
            rw [List.mem_range] at hj
            rw [if_pos le_rfl, if_pos (by omega)]
            have hj' : j - (n - n) / 2 = j := by omega
            rw [hj']
            have hk : j < ts.length := by omega
            show cropOrPadGo pad s s (ts.getD j (.leaf pad)) = ts.getD j (.leaf pad)
            rw [List.getD_eq_getElem ts _ hk]
            exact ih _ (hchild _ (List.getElem_mem hk))
          calc (List.range n).map _
              = (List.range n).map (fun j => ts.getD j (.leaf pad)) :=
                List.map_congr_left hmap
            _ = ts := by rw [← hlen]; exact getD_range_map ts _


/-- C8: for every input array and equal-rank shape descriptors of positive
integers, `crop_or_pad` succeeds and returns an array of shape exactly
`out_shape`; when `out_shape = in_shape` the returned array equals the input
unchanged. -/
theorem crop_or_pad_contract {α : Type} (t : Tensor α)
    (in_shape out_shape : List ℕ) (pad_value : α)
    (hwf : tensorWFb in_shape t = true)
    (hrank : in_shape.length = out_shape.length)
    (hpos_in : ∀ n ∈ in_shape, 0 < n) (hpos_out : ∀ n ∈ out_shape, 0 < n) :
    (∃ r, crop_or_pad t in_shape out_shape pad_value = some r ∧
      tensorWFb out_shape r = true) ∧
    (out_shape = in_shape → crop_or_pad t in_shape out_shape pad_value = some t) := by
  constructor
  · refine ⟨cropOrPadGo pad_value in_shape out_shape t, ?_, ?_⟩
    · rw [crop_or_pad, if_pos hrank]
    · exact cropOrPadGo_WF pad_value in_shape out_shape t hwf hrank
  · intro h
    rw [h, crop_or_pad, if_pos rfl, cropOrPadGo_id pad_value in_shape t hwf]

/-- Witness for `crop_or_pad_contract`: a wellformed `1 x 2` integer array
padded to shape `2 x 3`. -/
theorem crop_or_pad_contract_witness :
    (tensorWFb [1, 2] (Tensor.node [Tensor.node [Tensor.leaf (5 : ℤ),
        Tensor.leaf 7]]) = true) ∧
    ([1, 2] : List ℕ).length = ([2, 3] : List ℕ).length ∧
    (∀ n ∈ ([1, 2] : List ℕ), 0 < n) ∧ (∀ n ∈ ([2, 3] : List ℕ), 0 < n) ∧
    ((∃ r, crop_or_pad (Tensor.node [Tensor.node [Tensor.leaf (5 : ℤ),
        Tensor.leaf 7]]) [1, 2] [2, 3] 0 = some r ∧ tensorWFb [2, 3] r = true) ∧
      (([2, 3] : List ℕ) = [1, 2] →
        crop_or_pad (Tensor.node [Tensor.node [Tensor.leaf (5 : ℤ),
          Tensor.leaf 7]]) [1, 2] [2, 3] 0 =
          some (Tensor.node [Tensor.node [Tensor.leaf 5, Tensor.leaf 7]]))) :=
  ⟨by decide, by decide, by decide, by decide,
    crop_or_pad_contract _ [1, 2] [2, 3] 0 (by decide) (by decide)
      (by decide) (by decide)⟩

/-! ## EsophagusCancer (`esophagus_cancer.py`, lines 11-48)

Input: the decoded `RGB` images (PIL produces 8-bit channel values, so
`np.array(tmp_img)` is a `uint8` array with entries in `[0, 255]`).
`__init__` stacks them (`np.array`), computes `(self.data_image * 2) - 1`
**in uint8 arithmetic** — both the doubling and the decrement wrap modulo
256, so a native value `x` becomes `(2x - 1) mod 256` (written below as
`(x * 2 % 256 + 255) % 256` over `ℕ`; e.g. `255 ↦ 253` and `0 ↦ 255`) —
and moves the channel axis from last to first
(`np.moveaxis(..., -1, 1)`), giving `[N, 3, H, W]`.  `all_images` returns
the whole tensor, `__getitem__` one `[3, H, W]` slice. -/

/-- `(x * 2) - 1` in uint8: multiply wraps modulo 256, then subtracting 1
wraps again (`y - 1 ≡ y + 255 (mod 256)`). -/
def uint8Rescale (x : ℕ) : ℕ := (x * 2 % 256 + 255) % 256

def moveChannelFirst (img : List (List (List ℕ))) : List (List (List ℕ)) :=
  (List.range 3).map (fun c => img.map (fun row => row.map (fun px => px.getD c 0)))

def esophagusDataImage (raw : List (List (List (List ℕ)))) :
    List (List (List (List ℕ))) :=
  (raw.map (fun img => img.map (fun row => row.map (fun px =>
    px.map uint8Rescale)))).map moveChannelFirst

def esophagusAllImages (raw : List (List (List (List ℕ)))) :
    List (List (List (List ℕ))) :=
  esophagusDataImage raw

def esophagusGetitemImage (raw : List (List (List (List ℕ)))) (idx : ℕ) :
    List (List (List ℕ)) :=
  (esophagusDataImage raw).getD idx []

/-- Every scalar entry of a rank-4 nested list. -/
def allElems4 (d : List (List (List (List ℕ)))) : List ℕ :=
  d.flatten.flatten.flatten

/-- Every scalar entry of a rank-3 nested list. -/
def allElems3 (d : List (List (List ℕ))) : List ℕ :=
  d.flatten.flatten

/-- C3 counterexample: a single white pixel (native 8-bit value 255) is
mapped by the uint8 computation `(x * 2) - 1` to `253` (`510 mod 256 =
254`, then `254 - 1 = 253`), which the in-memory tensor then contains;
`253` does not lie in `[-1, 1]`. -/
theorem esophagus_value_out_of_range :
    (253 : ℕ) ∈ allElems4 (esophagusAllImages [[[[255, 255, 255]]]]) ∧
    (253 : ℕ) ∈ allElems3 (esophagusGetitemImage [[[[255, 255, 255]]]] 0) ∧
    ¬((-1 : ℤ) ≤ 253 ∧ (253 : ℤ) ≤ 1) := by
  refine ⟨by decide, by decide, ?_⟩
  intro h
  exact absurd h.2 (by decide)

theorem mem_allElems4 (d : List (List (List (List ℕ)))) (v : ℕ) :
    v ∈ allElems4 d ↔ ∃ a ∈ d, ∃ b ∈ a, ∃ c ∈ b, v ∈ c := by
  simp [allElems4, List.mem_flatten]
  tauto

theorem mem_allElems3 (d : List (List (List ℕ))) (v : ℕ) :
    v ∈ allElems3 d ↔ ∃ b ∈ d, ∃ c ∈ b, v ∈ c := by
  simp [allElems3, List.mem_flatten]
  tauto

theorem esophagus_elem_form (raw : List (List (List (List ℕ)))) (v : ℕ)
    (hlen : ∀ img ∈ raw, ∀ row ∈ img, ∀ px ∈ row, px.length = 3)
    (hv : v ∈ allElems4 (esophagusAllImages raw)) :
    ∃ x, x ∈ allElems4 raw ∧ v = uint8Rescale x := by
  rw [mem_allElems4] at hv
  obtain ⟨a, ha, b, hb, c, hc, hvc⟩ := hv
  unfold esophagusAllImages esophagusDataImage at ha
  rw [List.mem_map] at ha
  obtain ⟨r, hr, rfl⟩ := ha
  rw [List.mem_map] at hr
  obtain ⟨img, himg, rfl⟩ := hr
  unfold moveChannelFirst at hb
  rw [List.mem_map] at hb
  obtain ⟨ch, hch, rfl⟩ := hb
  rw [List.mem_range] at hch
  rw [List.mem_map] at hc
  obtain ⟨row, hrow, rfl⟩ := hc
  rw [List.mem_map] at hrow
  obtain ⟨row0, hrow0, rfl⟩ := hrow
  rw [List.mem_map] at hvc
  obtain ⟨rpx, hrpx, rfl⟩ := hvc
  rw [List.mem_map] at hrpx
  obtain ⟨px, hpx, rfl⟩ := hrpx
  have hpl : px.length = 3 := hlen img himg row0 hrow0 px hpx
  have hch3 : ch < (px.map uint8Rescale).length := by
    rw [List.length_map, hpl]
    exact hch
  rw [List.getD_eq_getElem _ 0 hch3, List.getElem_map]
  refine ⟨px[ch], ?_, rfl⟩
  rw [mem_allElems4]
  exact ⟨img, himg, row0, hrow0, px, hpx, List.getElem_mem _⟩

/-- C3 amended: every element of the in-memory tensor (via `all_images`
and via per-index retrieval) equals `(2x - 1) mod 256` of some native
8-bit pixel value `x` — the uint8 multiply and subtract wrap modulo 256 —
hence is an odd value in `[0, 255]` (native `255` gives `253`, native `0`
gives `255`); the elements do not lie in `[-1, 1]` in general (see the
counterexample), and the unbounded value `2x - 1` (e.g. `509`) never
occurs. -/
theorem esophagus_rescale_range (raw : List (List (List (List ℕ))))
    (hlen : ∀ img ∈ raw, ∀ row ∈ img, ∀ px ∈ row, px.length = 3)
    (hpx : ∀ x ∈ allElems4 raw, x ≤ 255) :
    (∀ v ∈ allElems4 (esophagusAllImages raw),
      (∃ x, x ≤ 255 ∧ v = uint8Rescale x) ∧ v ≤ 255 ∧ v % 2 = 1) ∧
    (∀ idx : ℕ, ∀ v ∈ allElems3 (esophagusGetitemImage raw idx),
      (∃ x, x ≤ 255 ∧ v = uint8Rescale x) ∧ v ≤ 255 ∧ v % 2 = 1) := by
  have hmain : ∀ v ∈ allElems4 (esophagusAllImages raw),
      (∃ x, x ≤ 255 ∧ v = uint8Rescale x) ∧ v ≤ 255 ∧ v % 2 = 1 := by
    intro v hv
    obtain ⟨x, hx, rfl⟩ := esophagus_elem_form raw v hlen hv
    refine ⟨⟨x, hpx x hx, rfl⟩, ?_, ?_⟩
    · unfold uint8Rescale
      omega
    · unfold uint8Rescale
      omega
  refine ⟨hmain, ?_⟩
  intro idx v hv
  refine hmain v ?_
  unfold esophagusGetitemImage at hv
  by_cases hidx : idx < (esophagusDataImage raw).length
  · rw [List.getD_eq_getElem _ [] hidx] at hv
    rw [mem_allElems3] at hv
    obtain ⟨b, hb, c, hc, hvc⟩ := hv
    rw [mem_allElems4]
    exact ⟨(esophagusDataImage raw)[idx], List.getElem_mem hidx, b, hb, c, hc, hvc⟩
  · rw [List.getD_eq_default _ [] (by omega)] at hv
    simp [allElems3] at hv

/-- Witness for `esophagus_rescale_range`: one 1x1 image with channel
values 0, 128, 255. -/
theorem esophagus_rescale_range_witness :
    (∀ img ∈ ([[[[0, 128, 255]]]] : List (List (List (List ℕ)))),
      ∀ row ∈ img, ∀ px ∈ row, px.length = 3) ∧
    (∀ x ∈ allElems4 ([[[[0, 128, 255]]]] : List (List (List (List ℕ)))),
      x ≤ 255) ∧
    (∀ v ∈ allElems4 (esophagusAllImages [[[[0, 128, 255]]]]),
      (∃ x, x ≤ 255 ∧ v = uint8Rescale x) ∧ v ≤ 255 ∧ v % 2 = 1) :=
  ⟨by decide, by decide,
    (esophagus_rescale_range [[[[0, 128, 255]]]] (by decide) (by decide)).1⟩

/-! ## BrainTumor `__getitem__` core (`brain_tumor.py`, lines 78-118)

The disk load and the `cv2.resize` calls are outside this repository; the
embedding takes the post-resize `image` and `label` arrays (rank 2, rational
entries) as inputs and models the remaining steps: the binary-label
assertion `len(np.unique(label)) <= 2`, the binarization
`label != np.unique(label)[0]`, the two `crop_or_pad` calls (rank-2
instance, written positionally: each output position reads the centered
source position or the pad value), and the min-max rescale
`2 * (image - min) / (max - min) - 1`.  A constant image makes the rescale
a `0/0` (NaN in numpy); this is modelled as `none`. -/

def axisSrc (inN outN i : ℕ) : Option ℕ :=
  if inN ≤ outN then
    if (outN - inN) / 2 ≤ i ∧ i < (outN - inN) / 2 + inN then
      some (i - (outN - inN) / 2)
    else none
  else some (i + (inN - outN) / 2)

/-- Output entry of the rank-2 `crop_or_pad`: the centered source entry
when both axes map inside the slice, the pad value otherwise. -/
def cropEntry (img : List (List ℚ)) (pad : ℚ) (osi osj : Option ℕ) : ℚ :=
  match osi, osj with
  | some si, some sj => (img.getD si []).getD sj pad
  | _, _ => pad

theorem cropEntry_some_some (img : List (List ℚ)) (pad : ℚ) (si sj : ℕ) :
    cropEntry img pad (some si) (some sj) = (img.getD si []).getD sj pad := rfl

theorem cropEntry_none_left (img : List (List ℚ)) (pad : ℚ) (o : Option ℕ) :
    cropEntry img pad none o = pad := by cases o <;> rfl

theorem cropEntry_none_right (img : List (List ℚ)) (pad : ℚ) (o : Option ℕ) :
    cropEntry img pad o none = pad := by cases o <;> rfl

/-- `crop_or_pad` at rank 2 (the instance used by `BrainTumor.__getitem__`). -/
def cropOrPad2 (img : List (List ℚ)) (inH inW outH outW : ℕ) (pad : ℚ) :
    List (List ℚ) :=
  (List.range outH).map (fun i => (List.range outW).map (fun j =>
    cropEntry img pad (axisSrc inH outH i) (axisSrc inW outW j)))

/-- `np.min` over the flattened entries (0 on an empty array). -/
def listMin (l : List ℚ) : ℚ :=
  match l with
  | [] => 0
  | x :: xs => xs.foldl min x

/-- `np.max` over the flattened entries (0 on an empty array). -/
def listMax (l : List ℚ) : ℚ :=
  match l with
  | [] => 0
  | x :: xs => xs.foldl max x

/-- `label != np.unique(label)[0]`: a pixel is foreground (1) exactly when
it differs from the smallest distinct label value.  The source's boolean
array is cast to float 0/1 by `crop_or_pad`, so 0/1 rationals are used. -/
def brainBinarize (label : List (List ℚ)) : List (List ℚ) :=
  label.map (List.map (fun v =>
    if v = (uniqueSorted label.flatten).getD 0 0 then (0 : ℚ) else 1))

/-- `crop_or_pad(image, in_shape=image.shape, out_shape=out_shape)`. -/
def brainCroppedImage (image : List (List ℚ)) (outH outW : ℕ) :
    List (List ℚ) :=
  cropOrPad2 image image.length (image.getD 0 []).length outH outW 0

/-- `crop_or_pad(label, in_shape=label.shape, out_shape=out_shape)` applied
to the binarized label. -/
def brainCroppedLabel (label : List (List ℚ)) (outH outW : ℕ) :
    List (List ℚ) :=
  cropOrPad2 (brainBinarize label) (brainBinarize label).length
    ((brainBinarize label).getD 0 []).length outH outW 0

/-- `2 * (image - image.min()) / (image.max() - image.min()) - 1`. -/
def brainRescaled (image : List (List ℚ)) (outH outW : ℕ) : List (List ℚ) :=
  (brainCroppedImage image outH outW).map (List.map (fun x =>
    2 * (x - listMin (brainCroppedImage image outH outW).flatten) /
      (listMax (brainCroppedImage image outH outW).flatten -
        listMin (brainCroppedImage image outH outW).flatten) - 1))

/-- The steps of `BrainTumor.__getitem__` after the `cv2.resize` calls:
assert at most two distinct label values, binarize, crop-or-pad both
arrays, min-max rescale the image.  A constant cropped image makes the
rescale a `0/0` (NaN array in numpy); modelled as `none`. -/
def brainGetitemCore (image label : List (List ℚ)) (outH outW : ℕ) :
    Option (List (List ℚ) × List (List ℚ)) :=
  if (uniqueSorted label.flatten).length ≤ 2 then
    if listMax (brainCroppedImage image outH outW).flatten =
        listMin (brainCroppedImage image outH outW).flatten then none
    else some (brainRescaled image outH outW, brainCroppedLabel label outH outW)
  else none

theorem getD_mem_or_default {α : Type} (l : List α) (j : ℕ) (d : α) :
    l.getD j d ∈ l ∨ l.getD j d = d := by
  by_cases h : j < l.length
  · left
    rw [List.getD_eq_getElem _ _ h]
    exact List.getElem_mem h
  · right
    exact List.getD_eq_default _ _ (by omega)

theorem foldl_min_le_init (a : ℚ) (xs : List ℚ) : xs.foldl min a ≤ a := by
  induction xs generalizing a with
  | nil => exact le_rfl
  | cons y ys ih => exact le_trans (ih (min a y)) (min_le_left a y)

theorem foldl_min_le_mem (a v : ℚ) (xs : List ℚ) (hv : v ∈ xs) :
    xs.foldl min a ≤ v := by
  induction xs generalizing a with
  | nil => simp at hv
  | cons y ys ih =>
      rcases List.mem_cons.mp hv with rfl | hv'
      · show ys.foldl min (min a v) ≤ v
        exact le_trans (foldl_min_le_init (min a v) ys) (min_le_right a v)
      · exact ih (min a y) hv'

theorem le_foldl_max_init (a : ℚ) (xs : List ℚ) : a ≤ xs.foldl max a := by
  induction xs generalizing a with
  | nil => exact le_rfl
  | cons y ys ih => exact le_trans (le_max_left a y) (ih (max a y))

theorem mem_le_foldl_max (a v : ℚ) (xs : List ℚ) (hv : v ∈ xs) :
    v ≤ xs.foldl max a := by
  induction xs generalizing a with
  | nil => simp at hv
  | cons y ys ih =>
      rcases List.mem_cons.mp hv with rfl | hv'
      · show v ≤ ys.foldl max (max a v)
        exact le_trans (le_max_right a v) (le_foldl_max_init (max a v) ys)
      · exact ih (max a y) hv'

theorem listMin_le (l : List ℚ) (v : ℚ) (hv : v ∈ l) : listMin l ≤ v := by
  cases l with
  | nil => simp at hv
  | cons x xs =>
      rcases List.mem_cons.mp hv with rfl | hv'
      · exact foldl_min_le_init v xs
      · exact foldl_min_le_mem x v xs hv'

theorem le_listMax (l : List ℚ) (v : ℚ) (hv : v ∈ l) : v ≤ listMax l := by
  cases l with
  | nil => simp at hv
  | cons x xs =>
      rcases List.mem_cons.mp hv with rfl | hv'
      · exact le_foldl_max_init v xs
      · exact mem_le_foldl_max x v xs hv'

theorem cropOrPad2_length (img : List (List ℚ)) (inH inW outH outW : ℕ)
    (pad : ℚ) : (cropOrPad2 img inH inW outH outW pad).length = outH := by
  simp [cropOrPad2]

theorem cropOrPad2_rowLength (img : List (List ℚ)) (inH inW outH outW : ℕ)
    (pad : ℚ) (row : List ℚ) (hrow : row ∈ cropOrPad2 img inH inW outH outW pad) :
    row.length = outW := by
  unfold cropOrPad2 at hrow
  obtain ⟨i, _, rfl⟩ := List.mem_map.mp hrow
  simp

theorem cropOrPad2_entry (img : List (List ℚ)) (inH inW outH outW : ℕ)
    (pad : ℚ) (i j : ℕ) (hi : i < outH) (hj : j < outW) :
    ((cropOrPad2 img inH inW outH outW pad).getD i []).getD j pad =
      cropEntry img pad (axisSrc inH outH i) (axisSrc inW outW j) := by
  unfold cropOrPad2
  have hi' : i < ((List.range outH).map (fun i => (List.range outW).map (fun j =>
      cropEntry img pad (axisSrc inH outH i) (axisSrc inW outW j)))).length := by
    simpa using hi
  rw [List.getD_eq_getElem _ _ hi', List.getElem_map, List.getElem_range]
  have hj' : j < ((List.range outW).map (fun j =>
      cropEntry img pad (axisSrc inH outH i) (axisSrc inW outW j))).length := by
    simpa using hj
  rw [List.getD_eq_getElem _ _ hj', List.getElem_map, List.getElem_range]

theorem axisSrc_lt (inN outN i si : ℕ) (hi : i < outN)
    (h : axisSrc inN outN i = some si) : si < inN := by
  unfold axisSrc at h
  by_cases hle : inN ≤ outN
  · rw [if_pos hle] at h
    by_cases hin : (outN - inN) / 2 ≤ i ∧ i < (outN - inN) / 2 + inN
    · rw [if_pos hin] at h
      injection h with h
      omega
    · rw [if_neg hin] at h
      exact absurd h (by simp)
  · rw [if_neg hle] at h
    injection h with h
    omega



theorem brainBinarize_elem (label : List (List ℚ)) (v : ℚ)
    (hv : v ∈ (brainBinarize label).flatten) : v = 0 ∨ v = 1 := by
  obtain ⟨row, hrow, hvrow⟩ := List.mem_flatten.mp hv
  unfold brainBinarize at hrow
  obtain ⟨row0, _, rfl⟩ := List.mem_map.mp hrow
  obtain ⟨x, _, rfl⟩ := List.mem_map.mp hvrow
  by_cases hx : x = (uniqueSorted label.flatten).getD 0 0
  · left
    exact if_pos hx
  · right
    exact if_neg hx

theorem cropOrPad2_flatten_mem (img : List (List ℚ)) (inH inW outH outW : ℕ)
    (pad : ℚ) (v : ℚ)
    (hv : v ∈ (cropOrPad2 img inH inW outH outW pad).flatten) :
    v ∈ img.flatten ∨ v = pad := by
  obtain ⟨row, hrow, hvrow⟩ := List.mem_flatten.mp hv
  unfold cropOrPad2 at hrow
  obtain ⟨i, _, rfl⟩ := List.mem_map.mp hrow
  obtain ⟨j, _, hvj⟩ := List.mem_map.mp hvrow
  rcases h1 : axisSrc inH outH i with _ | si
  · rw [h1, cropEntry_none_left] at hvj
    right
    exact hvj.symm
  · rcases h2 : axisSrc inW outW j with _ | sj
    · rw [h1, h2, cropEntry_none_right] at hvj
      right
      exact hvj.symm
    · rw [h1, h2, cropEntry_some_some] at hvj
      rcases getD_mem_or_default img si [] with hr | hr
      · rcases getD_mem_or_default (img.getD si []) sj pad with hc | hc
        · left
          exact List.mem_flatten.mpr ⟨img.getD si [], hr, hvj ▸ hc⟩
        · right
          rw [← hvj, hc]
      · rw [hr] at hvj
        right
        rw [← hvj]
        rw [List.getD_eq_default _ _ (by simp)]

theorem cropOrPad2_flatten_ne_nil (img : List (List ℚ))
    (inH inW outH outW : ℕ) (pad : ℚ) (hH : 0 < outH) (hW : 0 < outW) :
    ∃ x, x ∈ (cropOrPad2 img inH inW outH outW pad).flatten := by
  have hlen := cropOrPad2_length img inH inW outH outW pad
  have hmem : (cropOrPad2 img inH inW outH outW pad).getD 0 [] ∈
      cropOrPad2 img inH inW outH outW pad := by
    rcases getD_mem_or_default (cropOrPad2 img inH inW outH outW pad) 0 [] with h | h
    · exact h
    · exfalso
      have h0 : 0 < (cropOrPad2 img inH inW outH outW pad).length := by omega
      rw [List.getD_eq_getElem _ _ h0] at h
      have := cropOrPad2_rowLength img inH inW outH outW pad _ (List.getElem_mem h0)
      rw [h] at this
      simp at this
      omega
  have hrowlen : ((cropOrPad2 img inH inW outH outW pad).getD 0 []).length = outW :=
    cropOrPad2_rowLength img inH inW outH outW pad _ hmem
  have hx : ((cropOrPad2 img inH inW outH outW pad).getD 0 []).getD 0 pad ∈
      (cropOrPad2 img inH inW outH outW pad).getD 0 [] := by
    rcases getD_mem_or_default ((cropOrPad2 img inH inW outH outW pad).getD 0 []) 0 pad with h | h
    · exact h
    · have h0 : 0 < ((cropOrPad2 img inH inW outH outW pad).getD 0 []).length := by omega
      rw [List.getD_eq_getElem _ _ h0]
      exact List.getElem_mem h0
  exact ⟨_, List.mem_flatten.mpr ⟨_, hmem, hx⟩⟩

theorem listMin_lt_listMax (l : List ℚ) (hne : ∃ x, x ∈ l)
    (hMm : listMax l ≠ listMin l) : listMin l < listMax l := by
  obtain ⟨x, hx⟩ := hne
  have h1 := listMin_le l x hx
  have h2 := le_listMax l x hx
  rcases lt_or_eq_of_le (le_trans h1 h2) with h | h
  · exact h
  · exact absurd h.symm hMm

/-- C5 amended: for post-resize inputs satisfying the source's own
assertions (rectangular arrays, at most two distinct label values) and a
non-constant cropped image, `__getitem__` succeeds; both outputs have shape
`out_shape`, image values lie in `[-1, 1]`, the label is 0/1-valued and is
1 exactly at pixels whose centered source position holds a foreground
(non-minimal) label value.  For a constant image the `(max - min)`
denominator is zero (NaN in numpy) and retrieval yields no in-range image
(see the counterexample). -/
theorem brain_getitem_contract (image label : List (List ℚ))
    (inH inW outH outW : ℕ)
    (hinH : 0 < inH) (hinW : 0 < inW)
    (hlabH : label.length = inH)
    (hlabW : ∀ row ∈ label, row.length = inW)
    (hU : (uniqueSorted label.flatten).length ≤ 2)
    (houtH : 0 < outH) (houtW : 0 < outW)
    (hMm : listMax (brainCroppedImage image outH outW).flatten ≠
      listMin (brainCroppedImage image outH outW).flatten) :
    ∃ img lab, brainGetitemCore image label outH outW = some (img, lab) ∧
      img.length = outH ∧ (∀ row ∈ img, row.length = outW) ∧
      lab.length = outH ∧ (∀ row ∈ lab, row.length = outW) ∧
      (∀ v ∈ img.flatten, -1 ≤ v ∧ v ≤ 1) ∧
      (∀ v ∈ lab.flatten, v = 0 ∨ v = 1) ∧
      (∀ i j, i < outH → j < outW →
        ((lab.getD i []).getD j 0 = 1 ↔
          ∃ si sj, axisSrc inH outH i = some si ∧ axisSrc inW outW j = some sj ∧
            (label.getD si []).getD sj ((uniqueSorted label.flatten).getD 0 0) ≠
              (uniqueSorted label.flatten).getD 0 0)) := by
  have hbinH : (brainBinarize label).length = inH := by
    rw [brainBinarize, List.length_map, hlabH]
  have hbinW : ∀ row ∈ brainBinarize label, row.length = inW := by
    intro row hrow
    obtain ⟨row0, hrow0, rfl⟩ := List.mem_map.mp hrow
    rw [List.length_map]
    exact hlabW row0 hrow0
  have hbin0 : ((brainBinarize label).getD 0 []).length = inW := by
    have h0 : 0 < (brainBinarize label).length := by omega
    rw [List.getD_eq_getElem _ _ h0]
    exact hbinW _ (List.getElem_mem h0)
  refine ⟨brainRescaled image outH outW, brainCroppedLabel label outH outW, ?_,
    ?_, ?_, ?_, ?_, ?_, ?_, ?_⟩
  · rw [brainGetitemCore, if_pos hU, if_neg hMm]
  · rw [brainRescaled, List.length_map]
    exact cropOrPad2_length _ _ _ _ _ _
  · intro row hrow
    rw [brainRescaled] at hrow
    obtain ⟨row0, hrow0, rfl⟩ := List.mem_map.mp hrow
    rw [List.length_map]
    exact cropOrPad2_rowLength _ _ _ _ _ _ _ hrow0
  · exact cropOrPad2_length _ _ _ _ _ _
  · intro row hrow
    exact cropOrPad2_rowLength _ _ _ _ _ _ _ hrow
  · intro v hv
    rw [brainRescaled] at hv
    rw [← List.map_flatten] at hv
    obtain ⟨x, hx, rfl⟩ := List.mem_map.mp hv
    have hmin := listMin_le _ x hx
    have hmax := le_listMax _ x hx
    have hlt : listMin (brainCroppedImage image outH outW).flatten <
        listMax (brainCroppedImage image outH outW).flatten :=
      listMin_lt_listMax _ ⟨x, hx⟩ hMm
    have hpos : (0 : ℚ) < listMax (brainCroppedImage image outH outW).flatten -
        listMin (brainCroppedImage image outH outW).flatten := by linarith
    constructor
    · have hq : 0 ≤ 2 * (x - listMin (brainCroppedImage image outH outW).flatten) /
          (listMax (brainCroppedImage image outH outW).flatten -
            listMin (brainCroppedImage image outH outW).flatten) :=
        div_nonneg (by linarith) hpos.le
      linarith
    · have hq : 2 * (x - listMin (brainCroppedImage image outH outW).flatten) /
          (listMax (brainCroppedImage image outH outW).flatten -
            listMin (brainCroppedImage image outH outW).flatten) ≤ 2 := by
        rw [div_le_iff hpos]
        linarith
      linarith
  · intro v hv
    rcases cropOrPad2_flatten_mem _ _ _ _ _ _ v hv with h | h
    · exact brainBinarize_elem label v h
    · left
      exact h
  · intro i j hi hj
    rw [brainCroppedLabel, cropOrPad2_entry _ _ _ _ _ _ i j hi hj, hbinH, hbin0]
    rcases h1 : axisSrc inH outH i with _ | si
    · rw [cropEntry_none_left]
      constructor
      · intro h
        exact absurd h (by norm_num)
      · rintro ⟨si, sj, hsi, hsj, hne⟩
        exact Option.noConfusion hsi
    · rcases h2 : axisSrc inW outW j with _ | sj
      · rw [cropEntry_none_right]
        constructor
        · intro h
          exact absurd h (by norm_num)
        · rintro ⟨si2, sj2, hsi, hsj, hne⟩
          exact Option.noConfusion hsj
      · rw [cropEntry_some_some]
        have hsi : si < inH := axisSrc_lt inH outH i si hi h1
        have hsj : sj < inW := axisSrc_lt inW outW j sj hj h2
        have hsi' : si < label.length := by omega
        have hrowlen : label[si].length = inW :=
          hlabW _ (List.getElem_mem hsi')
        have hsibin : si < (brainBinarize label).length := by omega
        have hbrow : (brainBinarize label).getD si [] =
            label[si].map (fun v =>
              if v = (uniqueSorted label.flatten).getD 0 0 then (0 : ℚ) else 1) := by
          rw [List.getD_eq_getElem _ _ hsibin]
          exact List.getElem_map _
        have hsj2 : sj < label[si].length := by omega
        have hentry : ((brainBinarize label).getD si []).getD sj 0 =
            (if label[si][sj] = (uniqueSorted label.flatten).getD 0 0
              then (0 : ℚ) else 1) := by
          rw [hbrow]
          have hsj3 : sj < (label[si].map (fun v =>
              if v = (uniqueSorted label.flatten).getD 0 0 then (0 : ℚ) else 1)).length := by
            rw [List.length_map]
            omega
          rw [List.getD_eq_getElem _ _ hsj3, List.getElem_map]
        have hlab : (label.getD si []).getD sj
            ((uniqueSorted label.flatten).getD 0 0) = label[si][sj] := by
          rw [List.getD_eq_getElem _ _ hsi', List.getD_eq_getElem _ _ hsj2]
        rw [hentry]
        constructor
        · intro h
          by_cases hx : label[si][sj] = (uniqueSorted label.flatten).getD 0 0
          · rw [if_pos hx] at h
            exact absurd h (by norm_num)
          · exact ⟨si, sj, rfl, rfl, by rw [hlab]; exact hx⟩
        · rintro ⟨si2, sj2, hsi2, hsj2', hne⟩
          have hsieq : si2 = si := by
            injection hsi2 with h
            exact h.symm
          have hsjeq : sj2 = sj := by
            injection hsj2' with h
            exact h.symm
          subst hsieq
          subst hsjeq
          rw [hlab] at hne
          rw [if_neg hne]

/-- C5 counterexample: a constant (all 5) 2x2 image with a valid binary
label makes `image.max() - image.min()` zero, so the rescale is 0/0 (NaN in
numpy) and no image with values in `[-1, 1]` is produced. -/
theorem brain_getitem_constant_image :
    brainGetitemCore [[5, 5], [5, 5]] [[0, 1], [1, 0]] 2 2 = none := by decide

/-- Witness for `brain_getitem_contract`: a non-constant 2x2 image and a
binary 2x2 label at `out_shape = (2, 2)`. -/
theorem brain_getitem_contract_witness :
    ((0 : ℕ) < 2) ∧
    (([[0, 1], [1, 0]] : List (List ℚ)).length = 2) ∧
    (∀ row ∈ ([[0, 1], [1, 0]] : List (List ℚ)), row.length = 2) ∧
    ((uniqueSorted ([[0, 1], [1, 0]] : List (List ℚ)).flatten).length ≤ 2) ∧
    (listMax (brainCroppedImage [[0, 1], [2, 3]] 2 2).flatten ≠
      listMin (brainCroppedImage [[0, 1], [2, 3]] 2 2).flatten) ∧
    (∃ img lab, brainGetitemCore [[0, 1], [2, 3]] [[0, 1], [1, 0]] 2 2 =
        some (img, lab) ∧
      img.length = 2 ∧ (∀ row ∈ img, row.length = 2) ∧
      lab.length = 2 ∧ (∀ row ∈ lab, row.length = 2) ∧
      (∀ v ∈ img.flatten, -1 ≤ v ∧ v ≤ 1) ∧
      (∀ v ∈ lab.flatten, v = 0 ∨ v = 1) ∧
      (∀ i j, i < 2 → j < 2 →
        ((lab.getD i []).getD j 0 = 1 ↔
          ∃ si sj, axisSrc 2 2 i = some si ∧ axisSrc 2 2 j = some sj ∧
            (([[0, 1], [1, 0]] : List (List ℚ)).getD si []).getD sj
                ((uniqueSorted ([[0, 1], [1, 0]] : List (List ℚ)).flatten).getD 0 0) ≠
              (uniqueSorted ([[0, 1], [1, 0]] : List (List ℚ)).flatten).getD 0 0))) :=
  ⟨by decide, by decide, by decide, by decide, by decide,
    brain_getitem_contract [[0, 1], [2, 3]] [[0, 1], [1, 0]] 2 2 2 2
      (by decide) (by decide) (by decide) (by decide) (by decide)
      (by decide) (by decide) (by decide)⟩



/-! ## `pos_enc_sinusoid` (`diffusion_condensation.py`, lines 13-40)

`freq = C // 2`; `multiplier = np.exp(np.arange(0, freq, 2) * -(np.log(1e5)
/ freq))` has `ceil(freq/2)` entries.  Four slice assignments write
`sin`/`cos` of `h * multiplier` into even/odd channels below `freq` and of
`w * multiplier` into even/odd channels from `freq` on.  Each assignment is
a numpy broadcast of the `multiplier`-length right-hand side into the
slice's channel count: it succeeds when the two counts agree or the source
count is 1; otherwise numpy raises a broadcast error, modelled as `none`.
Real-valued entries use exact reals for the float computations. -/

def posEncFreq (C : ℕ) : ℕ := C / 2

/-- Number of entries of `np.arange(0, freq, 2)`. -/
def multiplierLen (C : ℕ) : ℕ := (posEncFreq C + 1) / 2

/-- numpy broadcast compatibility of a source length into a target length. -/
def bcastOk (src tgt : ℕ) : Bool := src == tgt || src == 1

/-- All four slice assignments of `pos_enc_sinusoid` broadcast. -/
def posEncOk (C : ℕ) : Bool :=
  bcastOk (multiplierLen C) ((posEncFreq C + 1) / 2) &&
  bcastOk (multiplierLen C) (posEncFreq C / 2) &&
  bcastOk (multiplierLen C) ((C - posEncFreq C + 1) / 2) &&
  bcastOk (multiplierLen C) ((C - posEncFreq C) / 2)

/-- Index into the multiplier vector after broadcasting: a length-1 source
is repeated. -/
def broadcastIdx (mc r : ℕ) : ℕ := if mc = 1 then 0 else r

/-- The `k`-th multiplier entry `exp(2k * -(log(1e5) / freq))`. -/
noncomputable def posEncMultiplier (C : ℕ) (k : ℕ) : ℝ :=
  Real.exp ((2 * k : ℝ) * -(Real.log 100000 / (posEncFreq C : ℝ)))

/-- The value written at channel `c` of pixel `(h, w)`. -/
noncomputable def posEncEntry (C : ℕ) (h w c : ℕ) : ℝ :=
  if c < posEncFreq C then
    if c % 2 = 0 then
      Real.sin ((h : ℝ) * posEncMultiplier C (broadcastIdx (multiplierLen C) (c / 2)))
    else
      Real.cos ((h : ℝ) * posEncMultiplier C (broadcastIdx (multiplierLen C) ((c - 1) / 2)))
  else
    if (c - posEncFreq C) % 2 = 0 then
      Real.sin ((w : ℝ) * posEncMultiplier C
        (broadcastIdx (multiplierLen C) ((c - posEncFreq C) / 2)))
    else
      Real.cos ((w : ℝ) * posEncMultiplier C
        (broadcastIdx (multiplierLen C) ((c - posEncFreq C - 1) / 2)))

noncomputable def pos_enc_sinusoid (H W C : ℕ) : Option (List (List (List ℝ))) :=
  if posEncOk C then
    some ((List.range H).map (fun h => (List.range W).map (fun w =>
      (List.range C).map (fun c => posEncEntry C h w c))))
  else none

/-- C4 counterexample: for shape `(1, 1, 1)` we get `freq = 0`, an empty
multiplier, and the third slice (`pos_enc[:, :, 0::2]`, one channel) cannot
receive the empty `(H, W, 0)` right-hand side: numpy raises a broadcast
error, so the call does not succeed. -/
theorem pos_enc_sinusoid_shape_1_1_1_fails :
    pos_enc_sinusoid 1 1 1 = none := by
  rw [pos_enc_sinusoid, if_neg]
  decide

/-- C4 amended: for positive `H`, `W` and `C` divisible by 4 (each of the
four interleaved channel groups then has exactly `C/4` channels, matching
the multiplier length) the call succeeds, the output has shape exactly
`(H, W, C)`, and the function is deterministic in its shape argument.  For
`C = 1` the slice assignment fails to broadcast (see the counterexample). -/
theorem pos_enc_sinusoid_contract (H W C : ℕ)
    (hH : 0 < H) (hW : 0 < W) (hC : 0 < C) (h4 : C % 4 = 0) :
    (∃ T, pos_enc_sinusoid H W C = some T ∧ T.length = H ∧
      (∀ r ∈ T, r.length = W ∧ ∀ p ∈ r, p.length = C)) ∧
    (∀ H2 W2 C2 : ℕ, H2 = H → W2 = W → C2 = C →
      pos_enc_sinusoid H2 W2 C2 = pos_enc_sinusoid H W C) := by
  have hok : posEncOk C = true := by
    obtain ⟨m, rfl⟩ : ∃ m, C = 4 * m := ⟨C / 4, by omega⟩
    have e0 : posEncFreq (4 * m) = 2 * m := by
      unfold posEncFreq
      omega
    have e1 : multiplierLen (4 * m) = m := by
      unfold multiplierLen
      rw [e0]
      omega
    unfold posEncOk
    rw [e0, e1]
    have c1 : (2 * m + 1) / 2 = m := by omega
    have c2 : 2 * m / 2 = m := by omega
    have c3 : (4 * m - 2 * m + 1) / 2 = m := by omega
    have c4 : (4 * m - 2 * m) / 2 = m := by omega
    rw [c1, c2, c3, c4]
    simp [bcastOk]
  constructor
  · refine ⟨_, by rw [pos_enc_sinusoid, if_pos hok], by simp, ?_⟩
    intro r hr
    obtain ⟨h, _, rfl⟩ := List.mem_map.mp hr
    refine ⟨by simp, ?_⟩
    intro p hp
    obtain ⟨w, _, rfl⟩ := List.mem_map.mp hp
    simp
  · intro H2 W2 C2 hh hw hc
    rw [hh, hw, hc]

/-- Witness for `pos_enc_sinusoid_contract` at shape `(2, 3, 4)`. -/
theorem pos_enc_sinusoid_contract_witness :
    (0 < 2 ∧ 0 < 3 ∧ 0 < 4 ∧ 4 % 4 = 0) ∧
    ((∃ T, pos_enc_sinusoid 2 3 4 = some T ∧ T.length = 2 ∧
      (∀ r ∈ T, r.length = 3 ∧ ∀ p ∈ r, p.length = 4)) ∧
    (∀ H2 W2 C2 : ℕ, H2 = 2 → W2 = 3 → C2 = 4 →
      pos_enc_sinusoid H2 W2 C2 = pos_enc_sinusoid 2 3 4)) :=
  ⟨by decide,
    pos_enc_sinusoid_contract 2 3 4 (by decide) (by decide) (by decide) (by decide)⟩

/-! ## Affinity step of `diffusion_condensation_simple`
(`diffusion_condensation.py`, lines 84-93)

Each iteration computes `A = 1/2 + 1/2 * cosine_similarity(X)` and zeroes
entries below `similarity_thr`; `D_inv = diag(1 / A.sum(axis=1))`.
`cosine_similarity` row-normalizes `X` (zero rows are left unchanged, as in
scikit-learn) and takes pairwise dot products. -/

def dotList (u v : List ℝ) : ℝ := (List.zipWith (· * ·) u v).sum

def sqnorm (v : List ℝ) : ℝ := dotList v v

noncomputable def l2normalize (v : List ℝ) : List ℝ :=
  if sqnorm v = 0 then v else v.map (fun x => x / Real.sqrt (sqnorm v))

noncomputable def cosineSim (u v : List ℝ) : ℝ :=
  dotList (l2normalize u) (l2normalize v)

/-- `A[i][j] = 1/2 + 1/2 * cosine_similarity(X)[i][j]`. -/
noncomputable def affinityRaw (X : List (List ℝ)) (i j : ℕ) : ℝ :=
  1 / 2 + 1 / 2 * cosineSim (X.getD i []) (X.getD j [])

/-- `A[A < similarity_thr] = 0`. -/
noncomputable def affinityThr (thr : ℝ) (X : List (List ℝ)) (i j : ℕ) : ℝ :=
  if affinityRaw X i j < thr then 0 else affinityRaw X i j

/-- `np.sum(A, axis=1)[i]`, the quantity inverted in `D_inv`. -/
noncomputable def rowSumThr (thr : ℝ) (X : List (List ℝ)) (i : ℕ) : ℝ :=
  ((List.range X.length).map (fun j => affinityThr thr X i j)).sum

theorem sqnorm_nonneg (v : List ℝ) : 0 ≤ sqnorm v := by
  unfold sqnorm dotList
  induction v with
  | nil => simp
  | cons x xs ih =>
      rw [List.zipWith_cons_cons, List.sum_cons]
      have := mul_self_nonneg x
      linarith

theorem dotList_ge_neg_half (u w : List ℝ) :
    -(sqnorm u + sqnorm w) / 2 ≤ dotList u w := by
  induction u generalizing w with
  | nil =>
      have e1 : sqnorm (List.nil : List ℝ) = 0 := rfl
      have e2 : dotList List.nil w = 0 := rfl
      have h2 := sqnorm_nonneg w
      rw [e1, e2]
      linarith
  | cons x xs ih =>
      cases w with
      | nil =>
          have e1 : sqnorm (List.nil : List ℝ) = 0 := rfl
          have e2 : dotList (x :: xs) List.nil = 0 := rfl
          have h1 := sqnorm_nonneg (x :: xs)
          rw [e1, e2]
          linarith
      | cons y ys =>
          have hxy := sq_nonneg (x + y)
          have hih := ih ys
          have hexp : dotList (x :: xs) (y :: ys) = x * y + dotList xs ys := by
            unfold dotList
            rw [List.zipWith_cons_cons, List.sum_cons]
          have hsu : sqnorm (x :: xs) = x * x + sqnorm xs := by
            unfold sqnorm dotList
            rw [List.zipWith_cons_cons, List.sum_cons]
          have hsw : sqnorm (y :: ys) = y * y + sqnorm ys := by
            unfold sqnorm dotList
            rw [List.zipWith_cons_cons, List.sum_cons]
          rw [hexp, hsu, hsw]
          nlinarith [hxy, hih]

theorem sqnorm_map_div (v : List ℝ) (s : ℝ) :
    sqnorm (v.map (fun x => x / s)) = sqnorm v / (s * s) := by
  unfold sqnorm dotList
  induction v with
  | nil => simp
  | cons x xs ih =>
      rw [List.map_cons, List.zipWith_cons_cons, List.sum_cons,
        List.zipWith_cons_cons, List.sum_cons, add_div]
      rw [div_mul_div_comm, ih]

theorem sqnorm_l2normalize_eq_one (v : List ℝ) (h : sqnorm v ≠ 0) :
    sqnorm (l2normalize v) = 1 := by
  unfold l2normalize
  rw [if_neg h]
  have hs : Real.sqrt (sqnorm v) * Real.sqrt (sqnorm v) = sqnorm v :=
    Real.mul_self_sqrt (sqnorm_nonneg v)
  rw [sqnorm_map_div, hs, div_self h]

theorem sqnorm_l2normalize_le_one (v : List ℝ) :
    sqnorm (l2normalize v) ≤ 1 := by
  by_cases h : sqnorm v = 0
  · unfold l2normalize
    rw [if_pos h, h]
    norm_num
  · rw [sqnorm_l2normalize_eq_one v h]

theorem cosineSim_self (v : List ℝ) (h : sqnorm v ≠ 0) : cosineSim v v = 1 := by
  unfold cosineSim
  exact sqnorm_l2normalize_eq_one v h

theorem cosineSim_ge_neg_one (u w : List ℝ) : -1 ≤ cosineSim u w := by
  unfold cosineSim
  have h1 := sqnorm_l2normalize_le_one u
  have h2 := sqnorm_l2normalize_le_one w
  have h3 := dotList_ge_neg_half (l2normalize u) (l2normalize w)
  linarith

theorem affinityRaw_nonneg (X : List (List ℝ)) (i j : ℕ) :
    0 ≤ affinityRaw X i j := by
  unfold affinityRaw
  have := cosineSim_ge_neg_one (X.getD i []) (X.getD j [])
  linarith

theorem affinityThr_nonneg (thr : ℝ) (X : List (List ℝ)) (i j : ℕ) :
    0 ≤ affinityThr thr X i j := by
  unfold affinityThr
  by_cases h : affinityRaw X i j < thr
  · rw [if_pos h]
  · rw [if_neg h]
    exact affinityRaw_nonneg X i j

theorem sum_map_range_ge (f : ℕ → ℝ) (n i : ℕ) (hi : i < n)
    (hf : ∀ j, 0 ≤ f j) : f i ≤ ((List.range n).map f).sum := by
  induction n with
  | zero => omega
  | succ n ihn =>
      rw [List.range_succ, List.map_append, List.sum_append]
      simp only [List.map_cons, List.map_nil, List.sum_cons, List.sum_nil]
      by_cases hin : i < n
      · have := ihn hin
        have := hf n
        linarith
      · have hieq : i = n := by omega
        subst hieq
        have hnn : 0 ≤ ((List.range i).map f).sum :=
          List.sum_nonneg (by
            intro x hx
            obtain ⟨j, _, rfl⟩ := List.mem_map.mp hx
            exact hf j)
        linarith

/-- C10 amended: in any iteration whose current feature matrix has only
nonzero rows, the rescaled affinity has diagonal exactly 1, the diagonal
survives the hard threshold for any `similarity_thr` at most 1, and every
row sum of the thresholded affinity is at least 1, so the degree inversion
`1 / A.sum(axis=1)` never divides by zero.  An all-zero feature row breaks
the claim (see the counterexample). -/
theorem affinity_diag_safe (X : List (List ℝ)) (thr : ℝ) (hthr : thr ≤ 1)
    (hrows : ∀ row ∈ X, sqnorm row ≠ 0) (i : ℕ) (hi : i < X.length) :
    affinityRaw X i i = 1 ∧ affinityThr thr X i i = 1 ∧
      1 ≤ rowSumThr thr X i := by
  have hrow : X.getD i [] ∈ X := by
    rw [List.getD_eq_getElem _ _ hi]
    exact List.getElem_mem hi
  have hdiag : affinityRaw X i i = 1 := by
    unfold affinityRaw
    rw [cosineSim_self _ (hrows _ hrow)]
    norm_num
  have hthrdiag : affinityThr thr X i i = 1 := by
    unfold affinityThr
    rw [hdiag, if_neg (by linarith)]
  refine ⟨hdiag, hthrdiag, ?_⟩
  have hge : affinityThr thr X i i ≤
      ((List.range X.length).map (fun j => affinityThr thr X i j)).sum :=
    sum_map_range_ge (fun j => affinityThr thr X i j) X.length i hi
      (fun j => affinityThr_nonneg thr X i j)
  unfold rowSumThr
  rw [hthrdiag] at hge
  exact hge

/-- Witness for `affinity_diag_safe`: the one-row matrix `[[1]]` at
threshold `0.95`. -/
theorem affinity_diag_safe_witness :
    ((95 : ℝ) / 100 ≤ 1) ∧ (∀ row ∈ [[(1 : ℝ)]], sqnorm row ≠ 0) ∧
    (0 < ([[(1 : ℝ)]] : List (List ℝ)).length) ∧
    (affinityRaw [[(1 : ℝ)]] 0 0 = 1 ∧
      affinityThr (95 / 100) [[(1 : ℝ)]] 0 0 = 1 ∧
      1 ≤ rowSumThr (95 / 100) [[(1 : ℝ)]] 0) :=
  ⟨by norm_num, by simp [sqnorm, dotList], by simp,
    affinity_diag_safe [[(1 : ℝ)]] (95 / 100) (by norm_num)
      (by simp [sqnorm, dotList]) 0 (by simp)⟩

/-- C10 counterexample: the all-zero feature row `[[0]]`.  scikit-learn's
normalization leaves a zero row unchanged, its self cosine similarity is 0,
the diagonal affinity is `0.5`, not `1.0`; at `similarity_thr = 0.95` the
whole row is zeroed and its sum is 0, so `1 / A.sum(axis=1)` divides by
zero. -/
theorem affinity_zero_row :
    affinityRaw [[(0 : ℝ)]] 0 0 = 1 / 2 ∧
    affinityRaw [[(0 : ℝ)]] 0 0 ≠ 1 ∧
    affinityThr (95 / 100) [[(0 : ℝ)]] 0 0 = 0 ∧
    rowSumThr (95 / 100) [[(0 : ℝ)]] 0 = 0 ∧
    ¬(1 ≤ rowSumThr (95 / 100) [[(0 : ℝ)]] 0) := by
  have h0 : sqnorm [(0 : ℝ)] = 0 := by
    unfold sqnorm dotList
    simp
  have hn : l2normalize [(0 : ℝ)] = [0] := by
    unfold l2normalize
    rw [if_pos h0]
  have hraw : affinityRaw [[(0 : ℝ)]] 0 0 = 1 / 2 := by
    unfold affinityRaw cosineSim
    have hget : ([[(0 : ℝ)]] : List (List ℝ)).getD 0 [] = [0] := rfl
    rw [hget, hn]
    unfold dotList
    simp
  have hthr : affinityThr (95 / 100) [[(0 : ℝ)]] 0 0 = 0 := by
    unfold affinityThr
    rw [if_pos (by rw [hraw]; norm_num)]
  have hsum : rowSumThr (95 / 100) [[(0 : ℝ)]] 0 = 0 := by
    unfold rowSumThr
    simp only [List.length_cons, List.length_nil, List.range_succ,
      List.range_zero, List.map_append, List.map_cons, List.map_nil,
      List.sum_append, List.sum_cons, List.sum_nil, List.nil_append]
    rw [hthr]
    norm_num
  refine ⟨hraw, by rw [hraw]; norm_num, hthr, hsum, by rw [hsum]; norm_num⟩



/-! ## `associate_frames` (`diffusion_condensation.py`, lines 266-303)

Frames are flattened pixel vectors (`H*W` entries).  For a consecutive pair
`(prev, next)`, the one-hot membership matrices over `np.unique(prev)` and
`np.unique(next)` give `intersection = v_prev . v_nextᵀ` and
`union = H*W - (1 - v_prev) . (1 - v_next)ᵀ`, hence an IoU matrix.  Then,
iterating over `np.unique(next)` (ascending): pixels of the next frame
*currently* equal to that label (the frame is mutated in place between
iterations) are rewritten to the `prev` label of maximal IoU (first maximal
index, as `np.argmax`) when the IoU column has a positive sum, else to 0.
Frame `i+1` is relabeled against the already-relabeled frame `i`. -/

def interCount (prev next : List ℤ) (a b : ℤ) : ℕ :=
  (prev.zip next).countP (fun pq => decide (pq.1 = a ∧ pq.2 = b))

def unionCount (prev next : List ℤ) (a b : ℤ) : ℕ :=
  next.length - (prev.zip next).countP (fun pq => decide (pq.1 ≠ a ∧ pq.2 ≠ b))

def iouVal (prev next : List ℤ) (a b : ℤ) : ℚ :=
  (interCount prev next a b : ℚ) / (unionCount prev next a b : ℚ)

/-- `np.sum(iou_matrix[..., i])` for the column of next-label `b`. -/
def iouColSum (prev next : List ℤ) (b : ℤ) : ℚ :=
  ((uniqueSorted prev).map (fun a => iouVal prev next a b)).sum

/-- `np.argmax` over a list keyed by `f`: the first element achieving the
maximum. -/
def argmaxFirst (f : ℤ → ℚ) : List ℤ → Option ℤ
  | [] => none
  | x :: xs =>
      match argmaxFirst f xs with
      | none => some x
      | some y => if f y > f x then some y else some x

/-- `np.unique(label_prev)[np.argmax(iou_matrix[..., i])]` when the column
has a positive entry, else 0. -/
def assignedLabel (prev next : List ℤ) (b : ℤ) : ℤ :=
  if iouColSum prev next b > 0 then
    match argmaxFirst (fun a => iouVal prev next a b) (uniqueSorted prev) with
    | some a => a
    | none => 0
  else 0

/-- `ordered_labels[image_idx + 1, loc] = ...` for one next-label `b`:
every pixel currently equal to `b` is rewritten. -/
def relabelStep (assigned : ℤ → ℤ) (cur : List ℤ) (b : ℤ) : List ℤ :=
  cur.map (fun v => if v = b then assigned b else v)

/-- The inner loop over `np.unique(label_next)`, mutating the frame in
place between iterations. -/
def assocStep (prev next : List ℤ) : List ℤ :=
  (uniqueSorted next).foldl (relabelStep (assignedLabel prev next)) next

def assocGo (p : List ℤ) : List (List ℤ) → List (List ℤ)
  | [] => []
  | n :: rest => assocStep p n :: assocGo (assocStep p n) rest

def associate_frames (labels : List (List ℤ)) : List (List ℤ) :=
  match labels with
  | [] => []
  | f :: rest => f :: assocGo f rest

/-- C2 counterexample: batch `[[2,2,3,3], [1,1,2,2]]` (1 x 4 frames).
Next-label 1 overlaps prev-label 2 perfectly (IoU column positive, argmax
label 2), so per the claim its pixels must end as 2; but the in-place loop
first rewrites them to 2 and the later iteration for next-label 2 captures
them and rewrites them to 3. -/
theorem associate_frames_inplace_interference :
    associate_frames [[2, 2, 3, 3], [1, 1, 2, 2]] =
      [[2, 2, 3, 3], [3, 3, 3, 3]] ∧
    iouColSum [2, 2, 3, 3] [1, 1, 2, 2] 1 > 0 ∧
    assignedLabel [2, 2, 3, 3] [1, 1, 2, 2] 1 = 2 ∧
    ((associate_frames [[2, 2, 3, 3], [1, 1, 2, 2]]).getD 1 []).getD 0 0 ≠
      assignedLabel [2, 2, 3, 3] [1, 1, 2, 2] 1 := by
  have hcol : iouColSum [2, 2, 3, 3] [1, 1, 2, 2] 1 = 1 := by
    norm_num [iouColSum, iouVal, interCount, unionCount, uniqueSorted,
      insertUnique, List.countP_cons, List.zip, List.zipWith]
  have hcol2 : iouColSum [2, 2, 3, 3] [1, 1, 2, 2] 2 = 1 := by
    norm_num [iouColSum, iouVal, interCount, unionCount, uniqueSorted,
      insertUnique, List.countP_cons, List.zip, List.zipWith]
  have hiou11 : iouVal [2, 2, 3, 3] [1, 1, 2, 2] 2 1 = 1 := by
    norm_num [iouVal, interCount, unionCount, List.countP_cons, List.zip,
      List.zipWith]
  have hiou21 : iouVal [2, 2, 3, 3] [1, 1, 2, 2] 3 1 = 0 := by
    norm_num [iouVal, interCount, unionCount, List.countP_cons, List.zip,
      List.zipWith]
  have hiou12 : iouVal [2, 2, 3, 3] [1, 1, 2, 2] 2 2 = 0 := by
    norm_num [iouVal, interCount, unionCount, List.countP_cons, List.zip,
      List.zipWith]
  have hiou22 : iouVal [2, 2, 3, 3] [1, 1, 2, 2] 3 2 = 1 := by
    norm_num [iouVal, interCount, unionCount, List.countP_cons, List.zip,
      List.zipWith]
  have huq : uniqueSorted ([2, 2, 3, 3] : List ℤ) = [2, 3] := by decide
  have ha1 : assignedLabel [2, 2, 3, 3] [1, 1, 2, 2] 1 = 2 := by
    rw [assignedLabel, if_pos (by rw [hcol]; norm_num), huq]
    simp only [argmaxFirst, hiou11, hiou21]
    norm_num
  have ha2 : assignedLabel [2, 2, 3, 3] [1, 1, 2, 2] 2 = 3 := by
    rw [assignedLabel, if_pos (by rw [hcol2]; norm_num), huq]
    simp only [argmaxFirst, hiou12, hiou22]
    norm_num
  have hstep : assocStep [2, 2, 3, 3] [1, 1, 2, 2] = [3, 3, 3, 3] := by
    rw [assocStep]
    have huqn : uniqueSorted ([1, 1, 2, 2] : List ℤ) = [1, 2] := by decide
    rw [huqn, List.foldl_cons, List.foldl_cons, List.foldl_nil]
    have hr1 : relabelStep (assignedLabel [2, 2, 3, 3] [1, 1, 2, 2])
        [1, 1, 2, 2] 1 = [2, 2, 2, 2] := by
      simp [relabelStep, ha1]
    have hr2 : relabelStep (assignedLabel [2, 2, 3, 3] [1, 1, 2, 2])
        [2, 2, 2, 2] 2 = [3, 3, 3, 3] := by
      simp [relabelStep, ha2]
    rw [hr1, hr2]
  have hframes : associate_frames [[2, 2, 3, 3], [1, 1, 2, 2]] =
      [[2, 2, 3, 3], [3, 3, 3, 3]] := by
    show [2, 2, 3, 3] :: assocGo [2, 2, 3, 3] [[1, 1, 2, 2]] = _
    rw [assocGo, assocGo, hstep]
  refine ⟨hframes, by rw [hcol]; norm_num, ha1, ?_⟩
  rw [hframes, ha1]
  norm_num

theorem relabelFold_eq (assigned : ℤ → ℤ) (orig : List ℤ) :
    ∀ (todo done : List ℤ),
    (∀ d ∈ done, ∀ t ∈ todo, assigned d ≠ t) →
    (∀ d ∈ done, ∀ t ∈ todo, d ≠ t) →
    todo.Pairwise (· < ·) →
    (∀ u ∈ todo, ∀ v ∈ todo, u < v → assigned u ≠ v) →
    todo.foldl (relabelStep assigned)
      (orig.map (fun v => if v ∈ done then assigned v else v)) =
      orig.map (fun v => if v ∈ done ∨ v ∈ todo then assigned v else v) := by
  intro todo
  induction todo with
  | nil =>
      intro done _ _ _ _
      simp
  | cons b rest ih =>
      intro done ha hb hc hd
      rw [List.foldl_cons]
      have hstep : relabelStep assigned
          (orig.map (fun v => if v ∈ done then assigned v else v)) b =
          orig.map (fun v => if v ∈ done ++ [b] then assigned v else v) := by
        unfold relabelStep
        rw [List.map_map]
        refine List.map_congr_left ?_
        intro v _
        show (if (if v ∈ done then assigned v else v) = b then assigned b
            else (if v ∈ done then assigned v else v)) =
          if v ∈ done ++ [b] then assigned v else v
        by_cases hvd : v ∈ done
        · rw [if_pos hvd, if_neg (ha v hvd b (List.mem_cons_self b rest)),
            if_pos (List.mem_append_left _ hvd)]
        · rw [if_neg hvd]
          by_cases hvb : v = b
          · subst hvb
            rw [if_pos rfl, if_pos (List.mem_append_right _ (by simp))]
          · rw [if_neg hvb,
              if_neg (by rw [List.mem_append, List.mem_singleton]; tauto)]
      rw [hstep]
      rw [List.pairwise_cons] at hc
      obtain ⟨hblt, hrest⟩ := hc
      have ha2 : ∀ d ∈ done ++ [b], ∀ t ∈ rest, assigned d ≠ t := by
        intro d hdm t ht
        rcases List.mem_append.mp hdm with hdm | hdm
        · exact ha d hdm t (List.mem_cons_of_mem b ht)
        · rw [List.mem_singleton] at hdm
          subst hdm
          exact hd d (List.mem_cons_self d rest) t (List.mem_cons_of_mem d ht)
            (hblt t ht)
      have hb2 : ∀ d ∈ done ++ [b], ∀ t ∈ rest, d ≠ t := by
        intro d hdm t ht
        rcases List.mem_append.mp hdm with hdm | hdm
        · exact hb d hdm t (List.mem_cons_of_mem b ht)
        · rw [List.mem_singleton] at hdm
          subst hdm
          exact ne_of_lt (hblt t ht)
      have hd2 : ∀ u ∈ rest, ∀ v ∈ rest, u < v → assigned u ≠ v := by
        intro u hu v hv huv
        exact hd u (List.mem_cons_of_mem b hu) v (List.mem_cons_of_mem b hv) huv
      rw [ih (done ++ [b]) ha2 hb2 hrest hd2]
      refine List.map_congr_left ?_
      intro v _
      have hiff : (v ∈ done ++ [b] ∨ v ∈ rest) ↔ (v ∈ done ∨ v ∈ b :: rest) := by
        rw [List.mem_append, List.mem_singleton, List.mem_cons]
        tauto
      by_cases hv : v ∈ done ++ [b] ∨ v ∈ rest
      · rw [if_pos hv, if_pos (hiff.mp hv)]
      · rw [if_neg hv, if_neg (fun h => hv (hiff.mpr h))]

/-- C2 amended: within `associate_frames`, each consecutive pair
`(prev, next)` (with `prev` already relabeled) is processed by `assocStep`:
the distinct labels of `next` are handled in ascending order over the
in-place mutated frame, pixels currently holding the label being rewritten
to `assignedLabel` (the first prev-label of maximal IoU when the label's
IoU column has a positive entry, 0 otherwise).  Provided no assigned value
collides with a larger not-yet-processed next-label, this equals the
claim's per-pixel map: every pixel of `next` ends at the assigned label of
its original value.  Without that proviso the claim fails (see the
counterexample). -/
theorem associate_frames_pointwise (prev next : List ℤ)
    (hno : ∀ u ∈ uniqueSorted next, ∀ v ∈ uniqueSorted next, u < v →
      assignedLabel prev next u ≠ v) :
    assocStep prev next = next.map (fun v => assignedLabel prev next v) ∧
    ∀ rest : List (List ℤ), associate_frames (prev :: next :: rest) =
      prev :: assocStep prev next :: assocGo (assocStep prev next) rest := by
  constructor
  · unfold assocStep
    have h0 : next = next.map (fun v =>
        if v ∈ ([] : List ℤ) then assignedLabel prev next v else v) := by
      simp
    have hfold := relabelFold_eq (assignedLabel prev next) next
      (uniqueSorted next) []
      (by intro d hd; simp at hd)
      (by intro d hd; simp at hd)
      (sorted_uniqueSorted next)
      hno
    calc (uniqueSorted next).foldl (relabelStep (assignedLabel prev next)) next
        = (uniqueSorted next).foldl (relabelStep (assignedLabel prev next))
            (next.map (fun v =>
              if v ∈ ([] : List ℤ) then assignedLabel prev next v else v)) := by
          rw [← h0]
      _ = next.map (fun v =>
            if v ∈ ([] : List ℤ) ∨ v ∈ uniqueSorted next
            then assignedLabel prev next v else v) := hfold
      _ = next.map (fun v => assignedLabel prev next v) := by
          refine List.map_congr_left ?_
          intro v hv
          rw [if_pos (Or.inr ((mem_uniqueSorted v next).mpr hv))]
  · intro rest
    rfl

/-- Witness for `associate_frames_pointwise`: the single-label pair
`[1, 1]`, `[1, 1]` (one distinct label, so the no-collision hypothesis is
vacuous). -/
theorem associate_frames_pointwise_witness :
    (∀ u ∈ uniqueSorted [1, 1], ∀ v ∈ uniqueSorted [1, 1], u < v →
      assignedLabel [1, 1] [1, 1] u ≠ v) ∧
    (assocStep [1, 1] [1, 1] =
      ([1, 1] : List ℤ).map (fun v => assignedLabel [1, 1] [1, 1] v) ∧
    ∀ rest : List (List ℤ), associate_frames ([1, 1] :: [1, 1] :: rest) =
      [1, 1] :: assocStep [1, 1] [1, 1] ::
        assocGo (assocStep [1, 1] [1, 1]) rest) :=
  ⟨by simp [uniqueSorted, insertUnique],
    associate_frames_pointwise [1, 1] [1, 1]
      (by simp [uniqueSorted, insertUnique])⟩



/-! ## `cluster_indices_from_mask` (`diffusion_condensation.py`, lines 151-197)

`dice_coeff` comes from `utils.metrics`, which is not part of this
repository slice; it is modelled from the spec (section 4.5):
`2|A intersect B| / (|A| + |B|)`, 0 when both masks are empty.

The heap of `(-dice, cluster_idx)` tuples pops in ascending lexicographic
tuple order (Python tuple comparison); this is modelled by an insertion
sort under `lexLe`.  With `top1_only=False` the code seeds the selection
with the best label, then pops every remaining entry in order, adds it to
the dice map, and keeps it in the selection exactly when the Dice score of
the union of the tentative selection strictly exceeds the best score so
far. -/

/-- Modelled from the spec: `dice_coeff` of `utils.metrics` (absent from
this slice), section 4.5 contract. -/
def dice_coeff (a b : List Bool) : ℚ :=
  let i := (a.zip b).countP (fun pq => pq.1 && pq.2)
  let sa := a.count true
  let sb := b.count true
  if sa + sb = 0 then 0 else 2 * (i : ℚ) / ((sa : ℚ) + (sb : ℚ))

/-- Dice score of a single cluster index against the mask. -/
def singleDice (labels : List ℤ) (mask : List Bool) (idx : ℤ) : ℚ :=
  dice_coeff (labels.map (fun v => decide (v = idx))) mask

/-- Dice score of the union of a set of cluster indices
(`np.logical_or.reduce([labels == i for i in s])`). -/
def unionDice (labels : List ℤ) (mask : List Bool) (s : List ℤ) : ℚ :=
  dice_coeff (labels.map (fun v => decide (v ∈ s))) mask

/-- Ascending order on `(-dice, idx)` heap tuples. -/
def lexLe (p q : ℚ × ℤ) : Prop :=
  p.1 < q.1 ∨ (p.1 = q.1 ∧ p.2 ≤ q.2)

instance lexLe_decidable (p q : ℚ × ℤ) : Decidable (lexLe p q) := by
  unfold lexLe
  infer_instance

def insertPair (p : ℚ × ℤ) : List (ℚ × ℤ) → List (ℚ × ℤ)
  | [] => [p]
  | q :: qs => if lexLe p q then p :: q :: qs else q :: insertPair p qs

/-- The pop order of a `heapq` heap of tuples: ascending lexicographic. -/
def sortPairs (l : List (ℚ × ℤ)) : List (ℚ × ℤ) :=
  l.foldr insertPair []

/-- The pushed heap contents: one `(-dice, idx)` tuple per distinct label. -/
def heapEntries (labels : List ℤ) (mask : List Bool) : List (ℚ × ℤ) :=
  (uniqueSorted labels).map (fun idx => (-(singleDice labels mask idx), idx))

/-- One pop of the greedy loop: record the popped dice score in the map,
tentatively append the label, keep it in the selection exactly when the
union Dice strictly improves on the best so far.  State:
`(best_dice, best_cluster_indices, dice_map)`. -/
def greedyStep (labels : List ℤ) (mask : List Bool)
    (st : ℚ × List ℤ × List (ℤ × ℚ)) (entry : ℚ × ℤ) :
    ℚ × List ℤ × List (ℤ × ℚ) :=
  if unionDice labels mask (st.2.1 ++ [entry.2]) > st.1 then
    (unionDice labels mask (st.2.1 ++ [entry.2]), st.2.1 ++ [entry.2],
      st.2.2 ++ [(entry.2, -entry.1)])
  else (st.1, st.2.1, st.2.2 ++ [(entry.2, -entry.1)])

/-- The loop after the first `heappop`: fold over the remaining pops. -/
def clusterFromSorted (labels : List ℤ) (mask : List Bool) :
    List (ℚ × ℤ) → Option (List ℤ × List (ℤ × ℚ))
  | [] => none
  | (negBest, bestIdx) :: rest =>
      some ((rest.foldl (greedyStep labels mask)
          (-negBest, [bestIdx], [(bestIdx, -negBest)])).2.1,
        (rest.foldl (greedyStep labels mask)
          (-negBest, [bestIdx], [(bestIdx, -negBest)])).2.2)

/-- `cluster_indices_from_mask` with `top1_only=False`.  An empty label
array would make the initial `heappop` raise; modelled as `none`. -/
def cluster_indices_from_mask (labels : List ℤ) (mask : List Bool) :
    Option (List ℤ × List (ℤ × ℚ)) :=
  clusterFromSorted labels mask (sortPairs (heapEntries labels mask))

/-- Python dict lookup for the returned dice map. -/
def lookupQ (v : ℤ) : List (ℤ × ℚ) → Option ℚ
  | [] => none
  | e :: es => if e.1 = v then some e.2 else lookupQ v es

theorem lexLe_total (p q : ℚ × ℤ) (h : ¬lexLe p q) : lexLe q p := by
  unfold lexLe at h ⊢
  push_neg at h
  obtain ⟨h1, h2⟩ := h
  rcases eq_or_lt_of_le h1 with he | hl
  · right
    exact ⟨he, le_of_lt (h2 he.symm)⟩
  · left
    exact hl

theorem lexLe_trans (p q r : ℚ × ℤ) (h1 : lexLe p q) (h2 : lexLe q r) :
    lexLe p r := by
  unfold lexLe at h1 h2 ⊢
  rcases h1 with h1 | ⟨h1a, h1b⟩
  · rcases h2 with h2 | ⟨h2a, h2b⟩
    · exact Or.inl (h1.trans h2)
    · exact Or.inl (h2a ▸ h1)
  · rcases h2 with h2 | ⟨h2a, h2b⟩
    · exact Or.inl (h1a ▸ h2)
    · exact Or.inr ⟨h1a.trans h2a, h1b.trans h2b⟩

theorem mem_insertPair (a p : ℚ × ℤ) (l : List (ℚ × ℤ)) :
    a ∈ insertPair p l ↔ a = p ∨ a ∈ l := by
  induction l with
  | nil => simp [insertPair]
  | cons q qs ih =>
      by_cases h : lexLe p q
      · rw [insertPair, if_pos h]
        simp only [List.mem_cons]
      · rw [insertPair, if_neg h]
        simp only [List.mem_cons, ih]
        tauto

theorem sorted_insertPair (p : ℚ × ℤ) (l : List (ℚ × ℤ))
    (hl : l.Sorted lexLe) : (insertPair p l).Sorted lexLe := by
  induction l with
  | nil => simp [insertPair]
  | cons q qs ih =>
      rw [List.sorted_cons] at hl
      obtain ⟨hq, hqs⟩ := hl
      by_cases h : lexLe p q
      · rw [insertPair, if_pos h, List.sorted_cons]
        refine ⟨?_, ?_⟩
        · intro b hb
          rcases List.mem_cons.mp hb with hb | hb
          · exact hb ▸ h
          · exact lexLe_trans p q b h (hq b hb)
        · rw [List.sorted_cons]
          exact ⟨hq, hqs⟩
      · rw [insertPair, if_neg h, List.sorted_cons]
        refine ⟨?_, ih hqs⟩
        intro b hb
        rcases (mem_insertPair b p qs).mp hb with hb | hb
        · exact hb ▸ lexLe_total p q h
        · exact hq b hb

theorem mem_sortPairs (a : ℚ × ℤ) (l : List (ℚ × ℤ)) :
    a ∈ sortPairs l ↔ a ∈ l := by
  induction l with
  | nil => simp [sortPairs]
  | cons p ps ih =>
      show a ∈ insertPair p (sortPairs ps) ↔ _
      rw [mem_insertPair, ih, List.mem_cons]

theorem sorted_sortPairs (l : List (ℚ × ℤ)) : (sortPairs l).Sorted lexLe := by
  induction l with
  | nil => simp [sortPairs]
  | cons p ps ih => exact sorted_insertPair p _ ih

theorem unionDice_single (labels : List ℤ) (mask : List Bool) (b : ℤ) :
    unionDice labels mask [b] = singleDice labels mask b := by
  unfold unionDice singleDice
  congr 1
  refine List.map_congr_left ?_
  intro v _
  refine decide_eq_decide.mpr ?_
  exact List.mem_singleton



theorem lookupQ_of (l : List (ℤ × ℚ)) (v : ℤ) (d : ℚ)
    (hex : ∃ e ∈ l, e.1 = v) (hval : ∀ e ∈ l, e.1 = v → e.2 = d) :
    lookupQ v l = some d := by
  induction l with
  | nil =>
      obtain ⟨e, he, _⟩ := hex
      simp at he
  | cons e es ih =>
      by_cases h : e.1 = v
      · rw [lookupQ, if_pos h, hval e (List.mem_cons_self e es) h]
      · rw [lookupQ, if_neg h]
        refine ih ?_ ?_
        · obtain ⟨e2, he2, hk⟩ := hex
          rcases List.mem_cons.mp he2 with rfl | h2
          · exact absurd hk h
          · exact ⟨e2, h2, hk⟩
        · intro e2 he2 hk
          exact hval e2 (List.mem_cons_of_mem _ he2) hk

theorem greedy_fold_inv (labels : List ℤ) (mask : List Bool)
    (entries : List (ℚ × ℤ)) :
    ∀ st : ℚ × List ℤ × List (ℤ × ℚ),
      st.1 = unionDice labels mask st.2.1 →
      st.2.1 ≠ [] →
      (∀ k, k + 1 < st.2.1.length →
        unionDice labels mask (st.2.1.take (k + 1)) <
          unionDice labels mask (st.2.1.take (k + 2))) →
      ((entries.foldl (greedyStep labels mask) st).1 =
          unionDice labels mask
            (entries.foldl (greedyStep labels mask) st).2.1 ∧
        (entries.foldl (greedyStep labels mask) st).2.1.head? =
          st.2.1.head? ∧
        (entries.foldl (greedyStep labels mask) st).2.1 ≠ [] ∧
        (∀ k, k + 1 < (entries.foldl (greedyStep labels mask) st).2.1.length →
          unionDice labels mask
              ((entries.foldl (greedyStep labels mask) st).2.1.take (k + 1)) <
            unionDice labels mask
              ((entries.foldl (greedyStep labels mask) st).2.1.take (k + 2))) ∧
        (entries.foldl (greedyStep labels mask) st).2.2 =
          st.2.2 ++ entries.map (fun e => (e.2, -e.1))) := by
  induction entries with
  | nil =>
      intro st h1 h2 h3
      exact ⟨h1, rfl, h2, h3, by simp⟩
  | cons e es ih =>
      intro st h1 h2 h3
      rw [List.foldl_cons]
      have hprops : (greedyStep labels mask st e).1 =
            unionDice labels mask (greedyStep labels mask st e).2.1 ∧
          (greedyStep labels mask st e).2.1.head? = st.2.1.head? ∧
          (greedyStep labels mask st e).2.1 ≠ [] ∧
          (∀ k, k + 1 < (greedyStep labels mask st e).2.1.length →
            unionDice labels mask
                ((greedyStep labels mask st e).2.1.take (k + 1)) <
              unionDice labels mask
                ((greedyStep labels mask st e).2.1.take (k + 2))) ∧
          (greedyStep labels mask st e).2.2 = st.2.2 ++ [(e.2, -e.1)] := by
        unfold greedyStep
        by_cases hacc : unionDice labels mask (st.2.1 ++ [e.2]) > st.1
        · rw [if_pos hacc]
          refine ⟨rfl, ?_, by simp, ?_, rfl⟩
          · cases hsel : st.2.1 with
            | nil => exact absurd hsel h2
            | cons a l => rfl
          · intro k hk
            have hlen : (st.2.1 ++ [e.2]).length = st.2.1.length + 1 := by simp
            rw [hlen] at hk
            by_cases hkin : k + 2 ≤ st.2.1.length
            · rw [List.take_append_of_le_length (by omega),
                List.take_append_of_le_length (by omega)]
              exact h3 k (by omega)
            · have hk1 : k + 1 = st.2.1.length := by omega
              rw [List.take_append_of_le_length (by omega), hk1,
                List.take_length st.2.1,
                List.take_of_length_le (by rw [hlen]; omega)]
              rw [h1] at hacc
              exact hacc
        · rw [if_neg hacc]
          exact ⟨h1, rfl, h2, h3, rfl⟩
      obtain ⟨p1, p2, p3, p4, p5⟩ := hprops
      obtain ⟨f1, f2, f3, f4, f5⟩ := ih (greedyStep labels mask st e) p1 p3 p4
      refine ⟨f1, by rw [f2, p2], f3, f4, ?_⟩
      rw [f5, p5, List.map_cons, List.append_assoc]
      rfl

/-- C9: with `top1_only=False`, the selection starts with a label of
maximal individual Dice score; the union Dice score strictly increases at
every later element of the returned selection (a label was kept exactly
when it strictly improved the union Dice over the best seen); and the
returned score map sends every distinct label of the label map to its
individual (non-union) Dice score. -/
theorem cluster_indices_contract (labels : List ℤ) (mask : List Bool)
    (hne : labels ≠ []) :
    ∃ selected diceMap,
      cluster_indices_from_mask labels mask = some (selected, diceMap) ∧
      (∃ b, selected.head? = some b ∧ b ∈ labels ∧
        ∀ v ∈ labels, singleDice labels mask v ≤ singleDice labels mask b) ∧
      (∀ k, k + 1 < selected.length →
        unionDice labels mask (selected.take (k + 1)) <
          unionDice labels mask (selected.take (k + 2))) ∧
      (∀ v ∈ labels, lookupQ v diceMap =
        some (singleDice labels mask v)) := by
  obtain ⟨x, hx⟩ : ∃ x, x ∈ labels := by
    cases labels with
    | nil => exact absurd rfl hne
    | cons a l => exact ⟨a, List.mem_cons_self a l⟩
  have hxent : (-(singleDice labels mask x), x) ∈
      sortPairs (heapEntries labels mask) :=
    (mem_sortPairs _ _).mpr
      (List.mem_map.mpr ⟨x, (mem_uniqueSorted x labels).mpr hx, rfl⟩)
  cases hsp : sortPairs (heapEntries labels mask) with
  | nil =>
      rw [hsp] at hxent
      simp at hxent
  | cons hd rest =>
      obtain ⟨negBest, bestIdx⟩ := hd
      have hhd : (negBest, bestIdx) ∈ heapEntries labels mask := by
        rw [← mem_sortPairs, hsp]
        exact List.mem_cons_self _ _
      obtain ⟨b0, hb0u, hb0e⟩ := List.mem_map.mp hhd
      rw [Prod.mk.injEq] at hb0e
      obtain ⟨hb0f, hb0s⟩ := hb0e
      have hbmem : bestIdx ∈ labels := by
        rw [← hb0s]
        exact (mem_uniqueSorted b0 labels).mp hb0u
      have hnegBest : -negBest = singleDice labels mask bestIdx := by
        rw [← hb0f, neg_neg, hb0s]
      have hsorted := sorted_sortPairs (heapEntries labels mask)
      rw [hsp, List.sorted_cons] at hsorted
      have hmax : ∀ v ∈ labels,
          singleDice labels mask v ≤ singleDice labels mask bestIdx := by
        intro v hv
        have hvent : (-(singleDice labels mask v), v) ∈
            sortPairs (heapEntries labels mask) :=
          (mem_sortPairs _ _).mpr
            (List.mem_map.mpr ⟨v, (mem_uniqueSorted v labels).mpr hv, rfl⟩)
        rw [hsp] at hvent
        rcases List.mem_cons.mp hvent with heq | hrest
        · have h1 : -(singleDice labels mask v) = negBest :=
            congrArg Prod.fst heq
          have h2 : singleDice labels mask v = -negBest := by
            rw [← h1, neg_neg]
          rw [h2, hnegBest]
        · have hle := hsorted.1 _ hrest
          unfold lexLe at hle
          rcases hle with hle | ⟨hle, _⟩
          · have hle2 : negBest < -(singleDice labels mask v) := hle
            linarith [hnegBest]
          · have hle2 : negBest = -(singleDice labels mask v) := hle
            have heq2 : singleDice labels mask v =
                singleDice labels mask bestIdx := by
              rw [← hnegBest, hle2, neg_neg]
            exact le_of_eq heq2
      have h1 : (-negBest, ([bestIdx] : List ℤ),
            ([(bestIdx, -negBest)] : List (ℤ × ℚ))).1 =
          unionDice labels mask (-negBest, ([bestIdx] : List ℤ),
            ([(bestIdx, -negBest)] : List (ℤ × ℚ))).2.1 := by
        show -negBest = unionDice labels mask [bestIdx]
        rw [unionDice_single, hnegBest]
      obtain ⟨f1, f2, f3, f4, f5⟩ := greedy_fold_inv labels mask rest
        (-negBest, [bestIdx], [(bestIdx, -negBest)]) h1 (by simp)
        (by intro k hk; simp at hk)
      refine ⟨(rest.foldl (greedyStep labels mask)
          (-negBest, [bestIdx], [(bestIdx, -negBest)])).2.1,
        (rest.foldl (greedyStep labels mask)
          (-negBest, [bestIdx], [(bestIdx, -negBest)])).2.2, ?_, ?_, f4, ?_⟩
      · rw [cluster_indices_from_mask, hsp]
        rfl
      · exact ⟨bestIdx, by rw [f2]; rfl, hbmem, hmax⟩
      · intro v hv
        rw [f5]
        have hvent : (-(singleDice labels mask v), v) ∈
            sortPairs (heapEntries labels mask) :=
          (mem_sortPairs _ _).mpr
            (List.mem_map.mpr ⟨v, (mem_uniqueSorted v labels).mpr hv, rfl⟩)
        rw [hsp] at hvent
        refine lookupQ_of _ v (singleDice labels mask v) ?_ ?_
        · rcases List.mem_cons.mp hvent with heq | hrest
          · refine ⟨(bestIdx, -negBest), by simp, ?_⟩
            have : v = bestIdx := congrArg Prod.snd heq
            rw [this]
          · refine ⟨(v, singleDice labels mask v), ?_, rfl⟩
            refine List.mem_append_right _ ?_
            refine List.mem_map.mpr ⟨(-(singleDice labels mask v), v),
              hrest, ?_⟩
            rw [neg_neg]
        · intro e he hk
          rcases List.mem_append.mp he with he | he
          · rw [List.mem_singleton] at he
            subst he
            have hv2 : bestIdx = v := hk
            rw [hnegBest, hv2]
          · obtain ⟨e0, he0, rfl⟩ := List.mem_map.mp he
            have he0m : e0 ∈ heapEntries labels mask := by
              rw [← mem_sortPairs, hsp]
              exact List.mem_cons_of_mem _ he0
            obtain ⟨u, hu, hue⟩ := List.mem_map.mp he0m
            have hu1 : -(singleDice labels mask u) = e0.1 :=
              congrArg Prod.fst hue
            have hu2 : u = e0.2 := congrArg Prod.snd hue
            have hkv : u = v := by
              rw [hu2]
              exact hk
            rw [← hu1, neg_neg, hkv]

/-- Witness for `cluster_indices_contract`: `labels = [0, 1]`,
`mask = [true, false]`. -/
theorem cluster_indices_contract_witness :
    (([0, 1] : List ℤ) ≠ []) ∧
    (∃ selected diceMap,
      cluster_indices_from_mask [0, 1] [true, false] =
        some (selected, diceMap) ∧
      (∃ b, selected.head? = some b ∧ b ∈ ([0, 1] : List ℤ) ∧
        ∀ v ∈ ([0, 1] : List ℤ),
          singleDice [0, 1] [true, false] v ≤
            singleDice [0, 1] [true, false] b) ∧
      (∀ k, k + 1 < selected.length →
        unionDice [0, 1] [true, false] (selected.take (k + 1)) <
          unionDice [0, 1] [true, false] (selected.take (k + 2))) ∧
      (∀ v ∈ ([0, 1] : List ℤ), lookupQ v diceMap =
        some (singleDice [0, 1] [true, false] v))) :=
  ⟨by simp, cluster_indices_contract [0, 1] [true, false] (by simp)⟩



/-! ## `most_persistent_structures` (`diffusion_condensation.py`, lines 200-250)

Batch `labels : [B, H, W]` as nested lists.  Phase 1 folds over
`np.unique(labels)` (ascending), computing for each label over the
*current* (progressively zeroed) filtered batch: for every adjacent frame
pair in which the label is present in both frames, the Dice overlap of its
footprint and its area fraction in the earlier frame.  A label failing the
area or frame-count thresholds is zeroed out of the filtered batch;
otherwise `(mean_dice, label)` is pushed on a min-heap.  Phase 2 pops in
ascending score order (so higher scores overwrite later) and, skipping
label 0, assigns the label at every pixel where
`np.sum(filtered_labels == label_idx, axis=0) > min_frame_ratio` — the
per-pixel **frame count** (not the fraction of frames) compared against
the ratio threshold.  Both outputs are then renumbered. -/

/-- `np.sum(frame == idx)`: the label's area in one frame. -/
def countIn (frame : List (List ℤ)) (idx : ℤ) : ℕ :=
  frame.flatten.count idx

/-- Dice overlap of a label's footprint between two frames. -/
def frameDice (f g : List (List ℤ)) (idx : ℤ) : ℚ :=
  dice_coeff (f.flatten.map (fun v => decide (v = idx)))
    (g.flatten.map (fun v => decide (v = idx)))

def adjacentPairs {α : Type} (l : List α) : List (α × α) :=
  l.zip l.tail

/-- Accumulate `(sum_dice, sum_area_ratio, num_frames)` over adjacent
frame pairs in which the label exists in both frames. -/
def statsFold (filtered : List (List (List ℤ))) (idx : ℤ) (H W : ℕ) :
    ℚ × ℚ × ℕ :=
  (adjacentPairs filtered).foldl (fun acc pq =>
    if 0 < countIn pq.1 idx ∧ 0 < countIn pq.2 idx then
      (acc.1 + frameDice pq.1 pq.2 idx,
        acc.2.1 + (countIn pq.1 idx : ℚ) / ((H : ℚ) * (W : ℚ)),
        acc.2.2 + 1)
    else acc) (0, 0, 0)

/-- `filtered_labels[filtered_labels == label_idx] = 0`. -/
def zeroOut (filtered : List (List (List ℤ))) (idx : ℤ) :
    List (List (List ℤ)) :=
  filtered.map (fun f => f.map (fun row => row.map (fun v =>
    if v = idx then 0 else v)))

/-- Phase 1: fold over the precomputed `np.unique` list, zeroing failing
labels out of the filtered batch and pushing `(mean_dice, label)` for the
retained ones. -/
def filterPhase (frameThr areaThr : ℚ) (B H W : ℕ) :
    List ℤ → List (List (List ℤ)) × List (ℚ × ℤ) →
    List (List (List ℤ)) × List (ℚ × ℤ)
  | [], st => st
  | idx :: rest, st =>
      filterPhase frameThr areaThr B H W rest
        (if (if (statsFold st.1 idx H W).2.2 = 0 then 0
              else (statsFold st.1 idx H W).2.1 /
                ((statsFold st.1 idx H W).2.2 : ℚ)) < areaThr ∨
            ((statsFold st.1 idx H W).2.2 : ℚ) < frameThr * B then
          (zeroOut st.1 idx, st.2)
        else
          (st.1, st.2 ++ [(if (statsFold st.1 idx H W).2.2 = 0 then 0
            else (statsFold st.1 idx H W).1 /
              ((statsFold st.1 idx H W).2.2 : ℚ), idx)]))

/-- `np.sum(filtered_labels == label_idx, axis=0)` at pixel `(i, j)`: the
number of frames holding the label there. -/
def pixelFrameCount (filtered : List (List (List ℤ))) (idx : ℤ)
    (i j : ℕ) : ℕ :=
  (filtered.map (fun f => (f.getD i []).getD j 0)).count idx

/-- One write-loop iteration: assign the label wherever its per-pixel
frame count exceeds `min_frame_ratio` (the source compares the raw count,
not the fraction, against the ratio). -/
def writeLabel (frameThr : ℚ) (filtered : List (List (List ℤ))) (idx : ℤ)
    (H W : ℕ) (pers : List (List ℤ)) : List (List ℤ) :=
  (List.range H).map (fun i => (List.range W).map (fun j =>
    if frameThr < (pixelFrameCount filtered idx i j : ℚ) then idx
    else (pers.getD i []).getD j 0))

/-- Phase 2: pop the heap in ascending score order, skip label 0, write
each retained label into the consensus map. -/
def writePhase (frameThr : ℚ) (filtered : List (List (List ℤ)))
    (H W : ℕ) (heapSorted : List (ℚ × ℤ)) : List (List ℤ) :=
  heapSorted.foldl (fun pers e =>
    if e.2 = 0 then pers else writeLabel frameThr filtered e.2 H W pers)
    ((List.range H).map (fun _ => (List.range W).map (fun _ => (0 : ℤ))))

/-- The consensus map and filtered batch before the final renumbering
(`persistent_label` and `filtered_labels` right after the re-coloring
loop, lines 237-244). -/
def mostPersistentRaw (frameThr areaThr : ℚ)
    (labels : List (List (List ℤ))) : List (List ℤ) × List (List (List ℤ)) :=
  (writePhase frameThr
      (filterPhase frameThr areaThr labels.length
        (labels.getD 0 []).length ((labels.getD 0 []).getD 0 []).length
        (uniqueSorted labels.flatten.flatten) (labels, [])).1
      (labels.getD 0 []).length ((labels.getD 0 []).getD 0 []).length
      (sortPairs (filterPhase frameThr areaThr labels.length
        (labels.getD 0 []).length ((labels.getD 0 []).getD 0 []).length
        (uniqueSorted labels.flatten.flatten) (labels, [])).2),
    (filterPhase frameThr areaThr labels.length
      (labels.getD 0 []).length ((labels.getD 0 []).getD 0 []).length
      (uniqueSorted labels.flatten.flatten) (labels, [])).1)

/-- `continuous_renumber` on a `[B, H, W]` batch. -/
def continuousRenumber3 (labels : List (List (List ℤ))) :
    List (List (List ℤ)) :=
  labels.map (fun f => f.map (fun row => row.map (fun v =>
    (posIn v (uniqueSorted labels.flatten.flatten) : ℤ))))

def most_persistent_structures (frameThr areaThr : ℚ)
    (labels : List (List (List ℤ))) :
    List (List ℤ) × List (List (List ℤ)) :=
  (continuous_renumber (mostPersistentRaw frameThr areaThr labels).1,
    continuousRenumber3 (mostPersistentRaw frameThr areaThr labels).2)



/-- C1: the write loop compares the per-pixel frame **count** against
`min_frame_ratio` (`np.sum(filtered_labels == label_idx, axis=0) >
min_frame_ratio`, line 243, with no division by `B`), while the claim (and
the parallel retention test two lines earlier, which correctly scales by
`B`) demand the **fraction** of frames.  Failing input: a 5-frame batch of
`1 x 2` maps where label 1 is present at pixel `(0, 1)` in exactly one
frame.  Label 1 passes both retention filters; the fraction `1/5` does not
exceed `min_frame_ratio = 2/5`, yet the code assigns label 1 there because
the count `1` exceeds `2/5`. -/
theorem most_persistent_count_not_fraction :
    (mostPersistentRaw (2 / 5) (1 / 500)
      [[[1, 1]], [[1, 0]], [[1, 0]], [[1, 0]], [[1, 0]]]).2 =
      [[[1, 1]], [[1, 0]], [[1, 0]], [[1, 0]], [[1, 0]]] ∧
    (mostPersistentRaw (2 / 5) (1 / 500)
      [[[1, 1]], [[1, 0]], [[1, 0]], [[1, 0]], [[1, 0]]]).1 = [[1, 1]] ∧
    pixelFrameCount [[[1, 1]], [[1, 0]], [[1, 0]], [[1, 0]], [[1, 0]]]
      1 0 1 = 1 ∧
    (2 / 5 : ℚ) <
      (pixelFrameCount [[[1, 1]], [[1, 0]], [[1, 0]], [[1, 0]], [[1, 0]]]
        1 0 1 : ℚ) ∧
    ¬((2 / 5 : ℚ) <
      (pixelFrameCount [[[1, 1]], [[1, 0]], [[1, 0]], [[1, 0]], [[1, 0]]]
        1 0 1 : ℚ) / 5) := by
  have hcount : pixelFrameCount [[[1, 1]], [[1, 0]], [[1, 0]], [[1, 0]],
      [[1, 0]]] 1 0 1 = 1 := by decide
  have huq : uniqueSorted (([[[1, 1]], [[1, 0]], [[1, 0]], [[1, 0]],
      [[1, 0]]] : List (List (List ℤ))).flatten.flatten) = [0, 1] := by decide
  have hstats0 : statsFold [[[1, 1]], [[1, 0]], [[1, 0]], [[1, 0]],
      [[1, 0]]] 0 1 2 = (3, 3 / 2, 3) := by
    norm_num [statsFold, adjacentPairs, countIn, frameDice, dice_coeff,
      List.count_cons, List.countP_cons, List.zip, List.zipWith]
  have hstats1 : statsFold [[[1, 1]], [[1, 0]], [[1, 0]], [[1, 0]],
      [[1, 0]]] 1 1 2 = (11 / 3, 5 / 2, 4) := by
    norm_num [statsFold, adjacentPairs, countIn, frameDice, dice_coeff,
      List.count_cons, List.countP_cons, List.zip, List.zipWith]
  have hfp : filterPhase (2 / 5) (1 / 500) 5 1 2 [0, 1]
      ([[[1, 1]], [[1, 0]], [[1, 0]], [[1, 0]], [[1, 0]]], []) =
      ([[[1, 1]], [[1, 0]], [[1, 0]], [[1, 0]], [[1, 0]]],
        [(1, 0), (11 / 12, 1)]) := by
    rw [filterPhase]
    norm_num [hstats0]
    rw [filterPhase]
    norm_num [hstats1]
    rw [filterPhase]
  have hsort : sortPairs [((1 : ℚ), (0 : ℤ)), ((11 : ℚ) / 12, 1)] =
      [((11 : ℚ) / 12, 1), (1, 0)] := by
    norm_num [sortPairs, insertPair, lexLe]
  have hwrite : writePhase (2 / 5)
      [[[1, 1]], [[1, 0]], [[1, 0]], [[1, 0]], [[1, 0]]] 1 2
      [((11 : ℚ) / 12, 1), (1, 0)] = [[1, 1]] := by
    norm_num [writePhase, writeLabel, pixelFrameCount, List.count_cons,
      List.range_succ]
  have hraw : mostPersistentRaw (2 / 5) (1 / 500)
      [[[1, 1]], [[1, 0]], [[1, 0]], [[1, 0]], [[1, 0]]] =
      ([[1, 1]], [[[1, 1]], [[1, 0]], [[1, 0]], [[1, 0]], [[1, 0]]]) := by
    rw [mostPersistentRaw]
    have hB : ([[[1, 1]], [[1, 0]], [[1, 0]], [[1, 0]], [[1, 0]]] :
        List (List (List ℤ))).length = 5 := by decide
    have hH : (([[[1, 1]], [[1, 0]], [[1, 0]], [[1, 0]], [[1, 0]]] :
        List (List (List ℤ))).getD 0 []).length = 1 := by decide
    have hW : ((([[[1, 1]], [[1, 0]], [[1, 0]], [[1, 0]], [[1, 0]]] :
        List (List (List ℤ))).getD 0 []).getD 0 []).length = 2 := by decide
    rw [hB, hH, hW, huq, hfp, hsort, hwrite]
  exact ⟨by rw [hraw], by rw [hraw], hcount,
    by rw [hcount]; norm_num, by rw [hcount]; norm_num⟩


end UMS
